import Mathlib

/-!
# Version resolution of the PXC operator (`pkg/controller/pxc/vs.go`)

A shallow embedding of `GetExactVersion` and `getVersion` together with the
parts of Go's `strings`, `net/url` and `net/http` packages they call.

Conventions of the embedding:

* A Go `string` is a sequence of bytes.  It is modelled by a Lean `String`
  in which every character stands for the byte with the same code, so that
  ASCII literals read exactly as in the Go source.
* A Go `map[string]T` is modelled by the list of its entries together with
  the proof that no key occurs twice.
* A Go `error` is modelled by the inductive type `Error`; `none` is `nil`.
* The HTTP round trip (`http.Client.Do`) and the JSON decoder are parameters
  of the embedding (structure `Env`).
-/

set_option linter.dupNamespace false

namespace Pxc

/-! ## Data model (`vs.go`, lines 127-184) -/

/-- Go struct `Version`. -/
structure Version where
  Version : String := ""
  ImagePath : String := ""
  Imagehash : String := ""
  Status : String := ""
  Critilal : Bool := false
  deriving DecidableEq, Repr

/-- Go type `map[string]Version`: the entries of the map, no key twice. -/
structure VersionMap where
  entries : List (String × Version)
  nodup : (entries.map Prod.fst).Nodup

/-- Go builtin `len` on a map. -/
def VersionMap.len (m : VersionMap) : Nat := m.entries.length

/-- Go map index expression `m[k]`: the stored value, or the zero value of
`Version` when the key is absent. -/
def VersionMap.get (m : VersionMap) (k : String) : Version :=
  match m.entries.find? (fun e => e.1 = k) with
  | some e => e.2
  | none => {}

/-- The keys of a map, in the order of its entries. -/
def VersionMap.keys (m : VersionMap) : List String := m.entries.map Prod.fst

/-- The map without entries. -/
def VersionMap.empty : VersionMap := ⟨[], List.nodup_nil⟩

/-- The map with the single entry `k ↦ v`. -/
def VersionMap.single (k : String) (v : Version) : VersionMap :=
  ⟨[(k, v)], List.nodup_singleton k⟩

/-- Go struct `VersionMatrix`. -/
structure VersionMatrix where
  PXC : VersionMap
  PMM : VersionMap
  ProxySQL : VersionMap
  HAProxy : VersionMap
  Backup : VersionMap

/-- Go struct `OperatorVersion`. -/
structure OperatorVersion where
  Operator : String
  Database : String
  Matrix : VersionMatrix

/-- Go struct `VersionResponse`. -/
structure VersionResponse where
  Versions : List OperatorVersion

/-- Go struct `DepVersion`; the default value is Go's zero value
`DepVersion{}`. -/
structure DepVersion where
  PXCImage : String := ""
  PXCVersion : String := ""
  BackupImage : String := ""
  BackupVersion : String := ""
  ProxySqlImage : String := ""
  ProxySqlVersion : String := ""
  HAProxyImage : String := ""
  HAProxyVersion : String := ""
  PMMImage : String := ""
  PMMVersion : String := ""
  deriving DecidableEq, Repr

/-- Go struct `VersionServiceClient`. -/
structure VersionServiceClient where
  OpVersion : String
  deriving DecidableEq, Repr

/-- Go struct `VersionMeta`. -/
structure VersionMeta where
  Apply : String
  PXCVersion : String
  KubeVersion : String
  Platform : String
  ProxySqlVersion : String
  HAProxyVersion : String
  PMMVersion : String
  BackupVersion : String
  CRUID : String
  deriving DecidableEq, Repr

/-! ## Package `strings` (Go standard library), on byte lists -/

namespace Strings

/-- Go `strings.TrimRight(s, cutset)`: `s` without its trailing bytes that
occur in `cutset`. -/
def trimRight (cutset : List Char) : List Char → List Char
  | [] => []
  | c :: s =>
    match trimRight cutset s with
    | [] => if c ∈ cutset then [] else [c]
    | r :: rs => c :: r :: rs

/-- Go `strings.Cut(s, sep)` for a one-byte separator: the text before the
first `sep`, the text after it, and whether `sep` was found. -/
def cut (sep : Char) : List Char → List Char × List Char × Bool
  | [] => ([], [], false)
  | c :: s =>
    if c = sep then ([], s, true)
    else ((c :: (cut sep s).1), (cut sep s).2.1, (cut sep s).2.2)

/-- Go `strings.Contains(s, sep)` for a one-byte separator. -/
def contains (sep : Char) (s : List Char) : Bool := s.any (fun c => c = sep)

/-- Go `strings.Count(s, sep)` for a one-byte separator. -/
def count (sep : Char) (s : List Char) : Nat := s.countP (fun c => c = sep)

/-- Go `strings.HasPrefix(s, p)`. -/
def hasPrefix (p s : List Char) : Bool := p.isPrefixOf s

/-- Go `strings.HasSuffix(s, p)`. -/
def hasSuffix (p s : List Char) : Bool := p.reverse.isPrefixOf s.reverse

/-- Go `strings.Index(s, sep)`: the first position at which `sep` starts. -/
def index (sep : List Char) : List Char → Option Nat
  | [] => if sep = [] then some 0 else none
  | c :: s =>
    if sep.isPrefixOf (c :: s) then some 0
    else (index sep s).map (· + 1)

/-- Go `strings.LastIndex(s, sep)` for a one-byte separator. -/
def lastIndex (sep : Char) : List Char → Option Nat
  | [] => none
  | c :: s =>
    match lastIndex sep s with
    | some i => some (i + 1)
    | none => if c = sep then some 0 else none

/-- Go `strings.ToLower` on ASCII text (its only use is on URL schemes, which
consist of ASCII letters, digits, `+`, `-` and `.`). -/
def toLower (s : List Char) : List Char :=
  s.map (fun c => if 'A' ≤ c ∧ c ≤ 'Z' then Char.ofNat (c.toNat + 32) else c)

/-- Go `strings.Split(s, sep)` for a one-byte separator. -/
def split (sep : Char) : List Char → List (List Char)
  | [] => [[]]
  | c :: s =>
    if c = sep then [] :: split sep s
    else
      match split sep s with
      | [] => [[c]]
      | seg :: segs => (c :: seg) :: segs

/-- Go comparison `a < b` of two strings: lexicographic on bytes. -/
def less : List Char → List Char → Bool
  | _, [] => false
  | [], _ :: _ => true
  | a :: s, b :: t =>
    if a.toNat < b.toNat then true
    else if b.toNat < a.toNat then false
    else less s t

end Strings

/-! ## Package `net/url` (Go standard library)

The functions `Parse`, `(*URL).Query`, `Values.Add`, `Values.Encode` and
`(*URL).String` that `GetExactVersion` calls, with the unexported functions
they are built from, after `net/url/url.go` of Go 1.19 to 1.22. -/

namespace Url

/-- The errors `url.Parse` returns (the `Err` field of its `*url.Error`). -/
inductive ParseError where
  /-- Message "net/url: invalid control character in URL". -/
  | invalidControlCharacter
  /-- Message "empty url". -/
  | emptyURL
  /-- Message "missing protocol scheme". -/
  | missingProtocolScheme
  /-- Message "invalid URI for request". -/
  | invalidURIForRequest
  /-- Message "first path segment in URL cannot contain colon". -/
  | firstPathSegmentColon
  /-- Go `EscapeError(s)`: "invalid URL escape" followed by the quoted `s`. -/
  | escapeError (s : String)
  /-- Go `InvalidHostError(s)`: "invalid character ... in host name". -/
  | invalidHostError (s : String)
  /-- Message "missing ']' in host". -/
  | missingBracket
  /-- Message "invalid port ... after host". -/
  | invalidPort (colonPort : String)
  /-- Message "net/url: invalid userinfo". -/
  | invalidUserinfo
  deriving DecidableEq, Repr

/-- Go type `encoding`: the part of a URL a text is escaped for. -/
inductive Encoding where
  | encodePath
  | encodePathSegment
  | encodeHost
  | encodeZone
  | encodeUserPassword
  | encodeQueryComponent
  | encodeFragment
  deriving DecidableEq, Repr

/-- Go struct `Userinfo`. -/
structure Userinfo where
  username : String
  password : String
  passwordSet : Bool
  deriving DecidableEq, Repr

/-- Go struct `URL`; the default value is Go's zero value. -/
structure URL where
  Scheme : String := ""
  Opaque : String := ""
  User : Option Userinfo := none
  Host : String := ""
  Path : String := ""
  RawPath : String := ""
  OmitHost : Bool := false
  ForceQuery : Bool := false
  RawQuery : String := ""
  Fragment : String := ""
  RawFragment : String := ""
  deriving DecidableEq, Repr

/-- The value of a byte. -/
def byte (c : Char) : Nat := c.toNat % 256

/-- Whether `c` is an ASCII letter. -/
def isLetter (c : Char) : Bool := ('a' ≤ c && c ≤ 'z') || ('A' ≤ c && c ≤ 'Z')

/-- Whether `c` is an ASCII digit. -/
def isDigit (c : Char) : Bool := '0' ≤ c && c ≤ '9'

/-- Go `ishex`. -/
def ishex (c : Char) : Bool :=
  ('0' ≤ c && c ≤ '9') || ('a' ≤ c && c ≤ 'f') || ('A' ≤ c && c ≤ 'F')

/-- Go `unhex`. -/
def unhex (c : Char) : Nat :=
  if '0' ≤ c ∧ c ≤ '9' then c.toNat - '0'.toNat
  else if 'a' ≤ c ∧ c ≤ 'f' then c.toNat - 'a'.toNat + 10
  else if 'A' ≤ c ∧ c ≤ 'F' then c.toNat - 'A'.toNat + 10
  else 0

/-- Go `upperhex[n]`, the `n`-th byte of "0123456789ABCDEF". -/
def upperhex (n : Nat) : Char :=
  ['0', '1', '2', '3', '4', '5', '6', '7', '8', '9', 'A', 'B', 'C', 'D', 'E', 'F'].getD n '0'

/-- Go `shouldEscape`: whether the byte `c` must be escaped when it appears
in the part `mode` of a URL. -/
def shouldEscape (c : Char) (mode : Encoding) : Bool :=
  if isLetter c || isDigit c then false
  else if (mode = .encodeHost || mode = .encodeZone) &&
      c ∈ ['!', '$', '&', '\'', '(', ')', '*', '+', ',', ';', '=', ':', '[', ']', '<', '>', '"'] then
    false
  else if c ∈ ['-', '_', '.', '~'] then false
  else if c ∈ ['$', '&', '+', ',', '/', ':', ';', '=', '?', '@'] then
    match mode with
    | .encodePath => c = '?'
    | .encodePathSegment => c = '/' || c = ';' || c = ',' || c = '?'
    | .encodeUserPassword => c = '@' || c = '/' || c = '?' || c = ':'
    | .encodeQueryComponent => true
    | .encodeFragment => false
    | _ => true
  else if mode = .encodeFragment && c ∈ ['!', '(', ')', '*'] then false
  else true

/-- Go `escape(s, mode)`. -/
def escape (mode : Encoding) : List Char → List Char
  | [] => []
  | c :: s =>
    if c = ' ' ∧ mode = .encodeQueryComponent then '+' :: escape mode s
    else if shouldEscape c mode then
      '%' :: upperhex (byte c / 16) :: upperhex (byte c % 16) :: escape mode s
    else c :: escape mode s

/-- Go `unescape(s, mode)`: the first malformed escape or forbidden host byte
is an error, otherwise every `%XX` is replaced by the byte it denotes and, in
a query component, every `+` by a space. -/
def unescape (mode : Encoding) : List Char → Except ParseError (List Char)
  | [] => .ok []
  | c :: s =>
    if c = '%' then
      match s with
      | a :: b :: t =>
        if !ishex a || !ishex b then .error (.escapeError (String.mk [c, a, b]))
        else if mode = .encodeHost ∧ unhex a < 8 ∧ [c, a, b] ≠ ['%', '2', '5'] then
          .error (.escapeError (String.mk [c, a, b]))
        else if mode = .encodeZone ∧ [c, a, b] ≠ ['%', '2', '5'] ∧
            unhex a * 16 + unhex b ≠ 32 ∧
            shouldEscape (Char.ofNat (unhex a * 16 + unhex b)) .encodeHost then
          .error (.escapeError (String.mk [c, a, b]))
        else
          match unescape mode t with
          | .ok r => .ok (Char.ofNat (unhex a * 16 + unhex b) :: r)
          | .error e => .error e
      | _ => .error (.escapeError (String.mk (c :: s)))
    else if c = '+' then
      match unescape mode s with
      | .ok r => .ok ((if mode = .encodeQueryComponent then ' ' else '+') :: r)
      | .error e => .error e
    else if (mode = .encodeHost ∨ mode = .encodeZone) ∧ byte c < 128 ∧
        shouldEscape c .encodeHost then
      .error (.invalidHostError (String.mk [c]))
    else
      match unescape mode s with
      | .ok r => .ok (c :: r)
      | .error e => .error e

/-- Go `QueryEscape`. -/
def QueryEscape (s : String) : String := String.mk (escape .encodeQueryComponent s.toList)

/-- Go `QueryUnescape`. -/
def QueryUnescape (s : String) : Except ParseError String :=
  match unescape .encodeQueryComponent s.toList with
  | .ok r => .ok (String.mk r)
  | .error e => .error e

/-- Go `PathEscape`. -/
def PathEscape (s : String) : String := String.mk (escape .encodePathSegment s.toList)

/-- Go `stringContainsCTLByte`. -/
def stringContainsCTLByte (s : List Char) : Bool :=
  s.any (fun b => byte b < 32 || byte b = 127)

/-- The loop of Go `getScheme`, at position `i` of `rawURL` with `s` the
text from `i` on: the scheme and the text after its colon. -/
def getSchemeLoop (rawURL : List Char) : Nat → List Char →
    Except ParseError (List Char × List Char)
  | _, [] => .ok ([], rawURL)
  | i, c :: s =>
    if isLetter c then getSchemeLoop rawURL (i + 1) s
    else if isDigit c || c = '+' || c = '-' || c = '.' then
      if i = 0 then .ok ([], rawURL) else getSchemeLoop rawURL (i + 1) s
    else if c = ':' then
      if i = 0 then .error .missingProtocolScheme else .ok (rawURL.take i, s)
    else .ok ([], rawURL)

/-- Go `getScheme`. -/
def getScheme (rawURL : List Char) : Except ParseError (List Char × List Char) :=
  getSchemeLoop rawURL 0 rawURL

/-- Go `validOptionalPort`. -/
def validOptionalPort (port : List Char) : Bool :=
  match port with
  | [] => true
  | c :: s => c = ':' && s.all (fun b => !(b < '0' || b > '9'))

/-- Go `validUserinfo`. -/
def validUserinfo (s : List Char) : Bool :=
  s.all (fun r => isLetter r || isDigit r ||
    r ∈ ['-', '.', '_', ':', '~', '!', '$', '&', '\'', '(', ')', '*', '+', ',', ';', '=',
      '%', '@'])

/-- Go `parseHost`. -/
def parseHost (host : List Char) : Except ParseError (List Char) :=
  if Strings.hasPrefix ['['] host then
    match Strings.lastIndex ']' host with
    | none => .error .missingBracket
    | some i =>
      if !validOptionalPort (host.drop (i + 1)) then
        .error (.invalidPort (String.mk (host.drop (i + 1))))
      else
        match Strings.index ['%', '2', '5'] (host.take i) with
        | some zone =>
          match unescape .encodeHost (host.take zone) with
          | .error e => .error e
          | .ok host1 =>
            match unescape .encodeZone ((host.take i).drop zone) with
            | .error e => .error e
            | .ok host2 =>
              match unescape .encodeHost (host.drop i) with
              | .error e => .error e
              | .ok host3 => .ok (host1 ++ host2 ++ host3)
        | none => unescape .encodeHost host
  else
    match Strings.lastIndex ':' host with
    | some i =>
      if !validOptionalPort (host.drop i) then
        .error (.invalidPort (String.mk (host.drop i)))
      else unescape .encodeHost host
    | none => unescape .encodeHost host

/-- Go `parseAuthority`. -/
def parseAuthority (authority : List Char) :
    Except ParseError (Option Userinfo × List Char) :=
  match Strings.lastIndex '@' authority with
  | none =>
    match parseHost authority with
    | .error e => .error e
    | .ok host => .ok (none, host)
  | some i =>
    match parseHost (authority.drop (i + 1)) with
    | .error e => .error e
    | .ok host =>
      if !validUserinfo (authority.take i) then .error .invalidUserinfo
      else if !Strings.contains ':' (authority.take i) then
        match unescape .encodeUserPassword (authority.take i) with
        | .error e => .error e
        | .ok userinfo => .ok (some ⟨String.mk userinfo, "", false⟩, host)
      else
        match unescape .encodeUserPassword (Strings.cut ':' (authority.take i)).1 with
        | .error e => .error e
        | .ok username =>
          match unescape .encodeUserPassword (Strings.cut ':' (authority.take i)).2.1 with
          | .error e => .error e
          | .ok password => .ok (some ⟨String.mk username, String.mk password, true⟩, host)

/-- Go `(*URL).setPath`. -/
def URL.setPath (u : URL) (p : List Char) : Except ParseError URL :=
  match unescape .encodePath p with
  | .error e => .error e
  | .ok path =>
    .ok { u with
      Path := String.mk path
      RawPath := if p = escape .encodePath path then "" else String.mk p }

/-- Go `(*URL).setFragment`. -/
def URL.setFragment (u : URL) (f : List Char) : Except ParseError URL :=
  match unescape .encodeFragment f with
  | .error e => .error e
  | .ok frag =>
    .ok { u with
      Fragment := String.mk frag
      RawFragment := if f = escape .encodeFragment frag then "" else String.mk f }

/-- The end of Go `parse`, once scheme and query are split off `rest`:
authority and path. -/
def parseRest (url : URL) (rest : List Char) (viaRequest : Bool) : Except ParseError URL :=
  if (url.Scheme ≠ "" || (!viaRequest && !Strings.hasPrefix ['/', '/', '/'] rest)) &&
      Strings.hasPrefix ['/', '/'] rest then
    match parseAuthority (Strings.cut '/' (rest.drop 2)).1 with
    | .error e => .error e
    | .ok (user, host) =>
      URL.setPath { url with User := user, Host := String.mk host }
        (if (Strings.cut '/' (rest.drop 2)).2.2
          then '/' :: (Strings.cut '/' (rest.drop 2)).2.1 else [])
  else if url.Scheme ≠ "" && Strings.hasPrefix ['/'] rest then
    URL.setPath { url with OmitHost := true } rest
  else URL.setPath url rest

/-- The middle of Go `parse`, once the scheme is split off: the query is cut
off `rest`, and a rootless `rest` is opaque or refused. -/
def parseQueryAndRest (url : URL) (rest : List Char) (viaRequest : Bool) :
    Except ParseError URL :=
  let url1 : URL :=
    if Strings.hasSuffix ['?'] rest && Strings.count '?' rest = 1 then
      { url with ForceQuery := true }
    else { url with RawQuery := String.mk (Strings.cut '?' rest).2.1 }
  let rest1 : List Char :=
    if Strings.hasSuffix ['?'] rest && Strings.count '?' rest = 1 then rest.dropLast
    else (Strings.cut '?' rest).1
  if !Strings.hasPrefix ['/'] rest1 then
    if url1.Scheme ≠ "" then .ok { url1 with Opaque := String.mk rest1 }
    else if viaRequest then .error .invalidURIForRequest
    else if Strings.contains ':' (Strings.cut '/' rest1).1 then .error .firstPathSegmentColon
    else parseRest url1 rest1 viaRequest
  else parseRest url1 rest1 viaRequest

/-- Go `parse(rawURL, viaRequest)`. -/
def parse (rawURL : List Char) (viaRequest : Bool) : Except ParseError URL :=
  if stringContainsCTLByte rawURL then .error .invalidControlCharacter
  else if rawURL = [] ∧ viaRequest then .error .emptyURL
  else if rawURL = ['*'] then .ok { Path := "*" }
  else
    match getScheme rawURL with
    | .error e => .error e
    | .ok (scheme, rest) =>
      parseQueryAndRest { Scheme := String.mk (Strings.toLower scheme) } rest viaRequest

/-- Go struct `url.Error`: the operation, the URL and the cause. -/
structure Error where
  Op : String
  URL : String
  Err : ParseError
  deriving DecidableEq, Repr

/-- Go `url.Parse(rawURL)`: the fragment is cut off at the first `#`, the
rest is parsed by `parse`. -/
def Parse (rawURL : String) : Except Error URL :=
  match parse (Strings.cut '#' rawURL.toList).1 false with
  | .error e => .error ⟨"parse", String.mk (Strings.cut '#' rawURL.toList).1, e⟩
  | .ok url =>
    if (Strings.cut '#' rawURL.toList).2.1 = [] then .ok url
    else
      match URL.setFragment url (Strings.cut '#' rawURL.toList).2.1 with
      | .error e => .error ⟨"parse", rawURL, e⟩
      | .ok url1 => .ok url1

/-- Go type `Values`, a `map[string][]string`: the keys with their values,
in the order in which the keys were first added. -/
abbrev Values := List (String × List String)

/-- Go `Values.Add(key, value)`: `v[key] = append(v[key], value)`. -/
def Values.Add : Values → String → String → Values
  | [], key, value => [(key, [value])]
  | (k, vs) :: rest, key, value =>
    if k = key then (k, vs ++ [value]) :: rest
    else (k, vs) :: Values.Add rest key value

/-- Go index expression `v[key]` on `Values`: `nil` for an absent key. -/
def Values.get (v : Values) (key : String) : List String :=
  match v.find? (fun e => e.1 = key) with
  | some e => e.2
  | none => []

/-- One round of the loop of Go `parseQuery`, for the text `key` between two
`&`: a text with a semicolon, an empty text and a text whose key or value
does not unescape are skipped. -/
def parseQueryStep (m : Values) (key : List Char) : Values :=
  if Strings.contains ';' key then m
  else if key = [] then m
  else
    match unescape .encodeQueryComponent (Strings.cut '=' key).1 with
    | .error _ => m
    | .ok k =>
      match unescape .encodeQueryComponent (Strings.cut '=' key).2.1 with
      | .error _ => m
      | .ok value => Values.Add m (String.mk k) (String.mk value)

/-- Go `(*URL).Query`: `ParseQuery(u.RawQuery)` with its error dropped. -/
def URL.Query (u : URL) : Values :=
  (Strings.split '&' u.RawQuery.toList).foldl parseQueryStep []

/-- The keys of `v`, sorted as Go `slices.Sort` does. -/
def Values.sortedKeys (v : Values) : List String :=
  (v.map Prod.fst).insertionSort (fun a b => !Strings.less b.toList a.toList)

/-- The texts `key=value` that Go `Values.Encode` writes, in its order. -/
def Values.encodePairs (v : Values) : List String :=
  (Values.sortedKeys v).flatMap (fun k =>
    (Values.get v k).map (fun value => QueryEscape k ++ "=" ++ QueryEscape value))

/-- Go `Values.Encode`. -/
def Values.Encode (v : Values) : String := String.intercalate "&" (Values.encodePairs v)

/-- Go `validEncoded(s, mode)`. -/
def validEncoded (mode : Encoding) (s : List Char) : Bool :=
  s.all (fun c =>
    c ∈ ['!', '$', '&', '\'', '(', ')', '*', '+', ',', ';', '=', ':', '@', '[', ']', '%'] ||
    !shouldEscape c mode)

/-- Go `(*URL).EscapedPath`. -/
def URL.EscapedPath (u : URL) : String :=
  let escaped := if u.Path = "*" then "*" else String.mk (escape .encodePath u.Path.toList)
  if u.RawPath ≠ "" ∧ validEncoded .encodePath u.RawPath.toList then
    match unescape .encodePath u.RawPath.toList with
    | .ok p => if String.mk p = u.Path then u.RawPath else escaped
    | .error _ => escaped
  else escaped

/-- Go `(*URL).EscapedFragment`. -/
def URL.EscapedFragment (u : URL) : String :=
  let escaped := String.mk (escape .encodeFragment u.Fragment.toList)
  if u.RawFragment ≠ "" ∧ validEncoded .encodeFragment u.RawFragment.toList then
    match unescape .encodeFragment u.RawFragment.toList with
    | .ok f => if String.mk f = u.Fragment then u.RawFragment else escaped
    | .error _ => escaped
  else escaped

/-- Go `(*Userinfo).String`. -/
def Userinfo.String (u : Userinfo) : String :=
  String.mk (escape .encodeUserPassword u.username.toList) ++
    (if u.passwordSet then ":" ++ String.mk (escape .encodeUserPassword u.password.toList)
     else "")

/-- The authority that Go `(*URL).String` writes after the scheme. -/
def URL.authorityString (u : URL) : String :=
  if u.Scheme ≠ "" ∨ u.Host ≠ "" ∨ u.User.isSome then
    if u.OmitHost ∧ u.Host = "" ∧ u.User.isNone then ""
    else
      (if u.Host ≠ "" ∨ u.Path ≠ "" ∨ u.User.isSome then "//" else "") ++
      (match u.User with
        | some ui => Userinfo.String ui ++ "@"
        | none => "") ++
      (if u.Host ≠ "" then String.mk (escape .encodeHost u.Host.toList) else "")
  else ""

/-- Go `(*URL).String`. -/
def URL.String (u : URL) : String :=
  let start := if u.Scheme ≠ "" then u.Scheme ++ ":" else ""
  let body :=
    if u.Opaque ≠ "" then start ++ u.Opaque
    else
      let buf := start ++ URL.authorityString u
      let path := URL.EscapedPath u
      let buf1 :=
        if path ≠ "" ∧ path.toList.head? ≠ some '/' ∧ u.Host ≠ "" then buf ++ "/" else buf
      let buf2 :=
        if buf1 = "" ∧ Strings.contains ':' (Strings.cut '/' path.toList).1 then buf1 ++ "./"
        else buf1
      buf2 ++ path
  let withQuery :=
    if u.ForceQuery ∨ u.RawQuery ≠ "" then body ++ "?" ++ u.RawQuery else body
  if u.Fragment ≠ "" then withQuery ++ "#" ++ URL.EscapedFragment u else withQuery

end Url

/-! ## Errors, the network and the decoder -/

/-- A Go `error` value that `GetExactVersion` can return. -/
inductive Error where
  /-- The `*url.Error` of `url.Parse`. -/
  | url (err : Url.Error)
  /-- An error made by `fmt.Errorf`, with its message. -/
  | errorf (msg : String)
  /-- An error of the HTTP client, with its message. -/
  | http (msg : String)
  deriving DecidableEq, Repr

/-- Go struct `http.Request`, as far as `GetExactVersion` sets it. -/
structure Request where
  Method : String
  URL : Url.URL
  Header : List (String × String)
  deriving DecidableEq, Repr

/-- Go struct `http.Response`, as far as `GetExactVersion` reads it. -/
structure Response where
  Status : String
  StatusCode : Int
  Body : String
  deriving DecidableEq, Repr

/-- Go constant `http.StatusOK`. -/
def StatusOK : Int := 200

/-- What `GetExactVersion` calls and this embedding does not define: the
HTTP round trip `client.Do` and the JSON decoding of a response body into a
`VersionResponse` (its error is given by its message). -/
structure Env where
  Do : Request → Except Error Response
  Decode : String → Except String VersionResponse

/-- Go `removeEmptyPort` of `net/http`. -/
def removeEmptyPort (host : String) : String :=
  let colon := (Strings.lastIndex ':' host.toList).map (fun i => (i : Int))
  let bracket := (Strings.lastIndex ']' host.toList).map (fun i => (i : Int))
  if colon.getD (-1) > bracket.getD (-1) ∧ Strings.hasSuffix [':'] host.toList then
    String.mk host.toList.dropLast
  else host

/-- Go `http.NewRequest(method, url, nil)` for a valid method: the URL is
parsed, an empty port is removed from its host, the header is empty. -/
def NewRequest (method url : String) : Except Error Request :=
  match Url.Parse url with
  | .error e => .error (.url e)
  | .ok u => .ok ⟨method, { u with Host := removeEmptyPort u.Host }, []⟩

/-- Go `Header.Set(key, value)`: the values of `key` are replaced by
`value`. -/
def Request.setHeader (req : Request) (key value : String) : Request :=
  { req with Header := (req.Header.filter (fun h => h.1 ≠ key)) ++ [(key, value)] }

/-! ## `GetExactVersion` and `getVersion` (`vs.go`, lines 12-125) -/

/-- Go `getVersion` (lines 116-125).  The `for ... range` loop returns at
its first round; it runs only on a map with exactly one key, so the order in
which Go visits the keys does not matter. -/
def getVersion (versions : VersionMap) : String × Option Error :=
  if versions.len ≠ 1 then ("", some (.errorf "response has multiple or zero versions"))
  else
    match versions.keys with
    | k :: _ => (k, none)
    | [] => ("", none)

/-- The text that `GetExactVersion` hands to `url.Parse` (lines 18-22):
`fmt.Sprintf("%s/v1/pxc-operator/%s/%s", strings.TrimRight(endpoint, "/"),
vs.OpVersion, vm.Apply)`. -/
def requestURLText (vs : VersionServiceClient) (endpoint : String) (vm : VersionMeta) :
    String :=
  String.mk (Strings.trimRight ['/'] endpoint.toList) ++ "/v1/pxc-operator/" ++
    vs.OpVersion ++ "/" ++ vm.Apply

/-- The query values `q` of `GetExactVersion` (lines 28-48): the query of
the parsed URL, then the four mandatory parameters, then each optional
parameter whose field is not empty. -/
def requestQuery (requestURL : Url.URL) (vm : VersionMeta) : Url.Values :=
  let q := Url.URL.Query requestURL
  let q := Url.Values.Add q "databaseVersion" vm.PXCVersion
  let q := Url.Values.Add q "kubeVersion" vm.KubeVersion
  let q := Url.Values.Add q "platform" vm.Platform
  let q := Url.Values.Add q "customResourceUID" vm.CRUID
  let q := if vm.PMMVersion ≠ "" then Url.Values.Add q "pmmVersion" vm.PMMVersion else q
  let q := if vm.BackupVersion ≠ "" then Url.Values.Add q "backupVersion" vm.BackupVersion else q
  let q :=
    if vm.ProxySqlVersion ≠ "" then Url.Values.Add q "proxysqlVersion" vm.ProxySqlVersion else q
  let q :=
    if vm.HAProxyVersion ≠ "" then Url.Values.Add q "haproxyVersion" vm.HAProxyVersion else q
  q

/-- The URL that `GetExactVersion` requests (lines 17-50): the parsed text
with its query replaced by `q.Encode()`, or the error of `url.Parse`. -/
def requestURL (vs : VersionServiceClient) (endpoint : String) (vm : VersionMeta) :
    Except Error Url.URL :=
  match Url.Parse (requestURLText vs endpoint vm) with
  | .error err => .error (.url err)
  | .ok requestURL =>
    .ok { requestURL with RawQuery := Url.Values.Encode (requestQuery requestURL vm) }

/-- The end of `GetExactVersion` (lines 73-113), on the decoded response. -/
def resolve (r : VersionResponse) : DepVersion × Option Error :=
  match r.Versions with
  | [] => ({}, some (.errorf "empty versions response"))
  | first :: _ =>
    match getVersion first.Matrix.PXC with
    | (_, some err) => ({}, some err)
    | (pxcVersion, none) =>
      match getVersion first.Matrix.Backup with
      | (_, some err) => ({}, some err)
      | (backupVersion, none) =>
        match getVersion first.Matrix.PMM with
        | (_, some err) => ({}, some err)
        | (pmmVersion, none) =>
          match getVersion first.Matrix.ProxySQL with
          | (_, some err) => ({}, some err)
          | (proxySqlVersion, none) =>
            match getVersion first.Matrix.HAProxy with
            | (_, some err) => ({}, some err)
            | (haproxyVersion, none) =>
              ({ PXCImage := (first.Matrix.PXC.get pxcVersion).ImagePath
                 PXCVersion := pxcVersion
                 BackupImage := (first.Matrix.Backup.get backupVersion).ImagePath
                 BackupVersion := backupVersion
                 ProxySqlImage := (first.Matrix.ProxySQL.get proxySqlVersion).ImagePath
                 ProxySqlVersion := proxySqlVersion
                 HAProxyImage := (first.Matrix.HAProxy.get haproxyVersion).ImagePath
                 HAProxyVersion := haproxyVersion
                 PMMImage := (first.Matrix.PMM.get pmmVersion).ImagePath
                 PMMVersion := pmmVersion }, none)

/-- Go `GetExactVersion` (lines 12-114): the returned `DepVersion` and the
returned error (`none` for `nil`). -/
def GetExactVersion (env : Env) (vs : VersionServiceClient) (endpoint : String)
    (vm : VersionMeta) : DepVersion × Option Error :=
  match requestURL vs endpoint vm with
  | .error err => ({}, some err)
  | .ok requestURL =>
    match NewRequest "GET" (Url.URL.String requestURL) with
    | .error err => ({}, some err)
    | .ok req =>
      match env.Do (req.setHeader "Accept" "application/json") with
      | .error err => ({}, some err)
      | .ok resp =>
        if resp.StatusCode ≠ StatusOK then
          ({}, some (.errorf ("received bad status code " ++ resp.Status)))
        else
          match env.Decode resp.Body with
          | .error err => ({}, some (.errorf ("failed to unmarshal response: " ++ err)))
          | .ok r => resolve r

/-- The response that `GetExactVersion` receives (lines 17-60), if the
request is built and the round trip succeeds. -/
def receivedResponse (env : Env) (vs : VersionServiceClient) (endpoint : String)
    (vm : VersionMeta) : Option Response :=
  match requestURL vs endpoint vm with
  | .error _ => none
  | .ok requestURL =>
    match NewRequest "GET" (Url.URL.String requestURL) with
    | .error _ => none
    | .ok req =>
      match env.Do (req.setHeader "Accept" "application/json") with
      | .error _ => none
      | .ok resp => some resp

/-- Two `OperatorVersion` values are the same Go value: equal strings, and
maps with the same entries (in whatever order they are listed). -/
def OperatorVersion.Same (a b : OperatorVersion) : Prop :=
  a.Operator = b.Operator ∧ a.Database = b.Database ∧
  a.Matrix.PXC.entries.Perm b.Matrix.PXC.entries ∧
  a.Matrix.PMM.entries.Perm b.Matrix.PMM.entries ∧
  a.Matrix.ProxySQL.entries.Perm b.Matrix.ProxySQL.entries ∧
  a.Matrix.HAProxy.entries.Perm b.Matrix.HAProxy.entries ∧
  a.Matrix.Backup.entries.Perm b.Matrix.Backup.entries

instance (a b : OperatorVersion) : Decidable (a.Same b) := by
  unfold OperatorVersion.Same
  infer_instance

/-- The error of `getVersion`. -/
def errComponent : Error := .errorf "response has multiple or zero versions"

/-! ## Sample values -/

/-- The version service client of operator 1.14.0. -/
def sampleClient : VersionServiceClient := ⟨"1.14.0"⟩

/-- A query with every optional field empty. -/
def sampleMeta : VersionMeta :=
  { Apply := "recommended", PXCVersion := "8.0.32", KubeVersion := "1.28",
    Platform := "kubernetes", ProxySqlVersion := "", HAProxyVersion := "",
    PMMVersion := "", BackupVersion := "", CRUID := "abc123" }

/-- A matrix with exactly one key in each of its five mappings. -/
def sampleMatrix : VersionMatrix :=
  { PXC := VersionMap.single "8.0.33-25.1" { ImagePath := "percona/pxc:8.0.33" }
    PMM := VersionMap.single "2.41.0" { ImagePath := "percona/pmm-client:2.41.0" }
    ProxySQL := VersionMap.single "2.5.5" { ImagePath := "percona/proxysql2:2.5.5" }
    HAProxy := VersionMap.single "2.8.1" { ImagePath := "percona/haproxy:2.8.1" }
    Backup := VersionMap.single "8.0.33-28" { ImagePath := "percona/xtrabackup:8.0.33" } }

/-- A matrix entry for `sampleMatrix`. -/
def sampleEntry : OperatorVersion := ⟨"1.14.0", "8.0.32", sampleMatrix⟩

/-- A mapping with two keys. -/
def twoKeys : VersionMap :=
  ⟨[("2.5.5", { ImagePath := "percona/proxysql2:2.5.5" }),
    ("2.5.6", { ImagePath := "percona/proxysql2:2.5.6" })], by decide⟩

/-- An environment whose round trip always answers `resp` and whose decoder
always yields `r`. -/
def constEnv (resp : Response) (r : VersionResponse) : Env :=
  ⟨fun _ => .ok resp, fun _ => .ok r⟩

/-- A response with status 200. -/
def okResponse : Response := ⟨"200 OK", 200, "\x7b\"versions\": []\x7d"⟩

/-- A response with status 503. -/
def unavailableResponse : Response := ⟨"503 Service Unavailable", 503, "\x7b\"versions\": []\x7d"⟩

/-- The URL requested for `sampleClient`, endpoint "http://vs/" and
`sampleMeta`. -/
def sampleURL : Url.URL :=
  { Scheme := "http", Host := "vs", Path := "/v1/pxc-operator/1.14.0/recommended",
    RawQuery :=
      "customResourceUID=abc123&databaseVersion=8.0.32&kubeVersion=1.28&platform=kubernetes" }

/-- A matrix entry whose database mapping is empty. -/
def entryNoPXC : OperatorVersion :=
  ⟨"1.14.0", "8.0.32", { sampleMatrix with PXC := VersionMap.empty }⟩

/-- A matrix entry whose backup mapping is empty. -/
def entryNoBackup : OperatorVersion :=
  ⟨"1.14.0", "8.0.32", { sampleMatrix with Backup := VersionMap.empty }⟩

/-- A matrix entry whose pooler mapping has two keys. -/
def entryTwoProxySQL : OperatorVersion :=
  ⟨"1.14.0", "8.0.32", { sampleMatrix with ProxySQL := twoKeys }⟩

/-- A matrix entry whose database mapping has one key, stored with an empty
image path (the JSON object of the version has no `imagePath`). -/
def entryNoImage : OperatorVersion :=
  ⟨"1.14.0", "8.0.32", { sampleMatrix with PXC := VersionMap.single "8.0.33-25.1" {} }⟩

/-- The result for `sampleMatrix`. -/
def sampleResult : DepVersion :=
  { PXCImage := "percona/pxc:8.0.33", PXCVersion := "8.0.33-25.1",
    BackupImage := "percona/xtrabackup:8.0.33", BackupVersion := "8.0.33-28",
    ProxySqlImage := "percona/proxysql2:2.5.5", ProxySqlVersion := "2.5.5",
    HAProxyImage := "percona/haproxy:2.8.1", HAProxyVersion := "2.8.1",
    PMMImage := "percona/pmm-client:2.41.0", PMMVersion := "2.41.0" }

/-- The text `s` stands for a Go string: each of its characters is a byte. -/
def IsBytes (s : String) : Prop := ∀ c ∈ s.toList, c.toNat < 256

/-- Every field of `vm` stands for a Go string. -/
def VersionMeta.IsBytes (vm : VersionMeta) : Prop :=
  Pxc.IsBytes vm.Apply ∧ Pxc.IsBytes vm.PXCVersion ∧ Pxc.IsBytes vm.KubeVersion ∧
  Pxc.IsBytes vm.Platform ∧ Pxc.IsBytes vm.ProxySqlVersion ∧ Pxc.IsBytes vm.HAProxyVersion ∧
  Pxc.IsBytes vm.PMMVersion ∧ Pxc.IsBytes vm.BackupVersion ∧ Pxc.IsBytes vm.CRUID

instance (s : String) : Decidable (IsBytes s) := by
  unfold IsBytes
  infer_instance

instance (vm : VersionMeta) : Decidable vm.IsBytes := by
  unfold VersionMeta.IsBytes
  infer_instance

/-- The pairs of key and value that Go `Values.Encode` writes, in its order. -/
def Url.Values.sortedPairs (v : Url.Values) : List (String × String) :=
  (Url.Values.sortedKeys v).flatMap (fun k =>
    (Url.Values.get v k).map (fun value => (k, value)))

/-- The segments of a path, the texts between its `/`. -/
def pathSegments (path : String) : List String :=
  (Strings.split '/' path.toList).map String.mk

/-- The parts of the query string of `u` between its `&`. -/
def queryParts (u : Url.URL) : List String :=
  (Strings.split '&' u.RawQuery.toList).map String.mk

/-- Whether the query string of `u` has a part `name=...`. -/
def queryHasKey (u : Url.URL) (name : String) : Bool :=
  (queryParts u).any (fun p => (name ++ "=").toList.isPrefixOf p.toList)

/-- The sample query with a channel that holds a query string. -/
def channelWithPmm : VersionMeta := { sampleMeta with Apply := "recommended?pmmVersion=2.0" }

/-- The sample query with another channel that holds a query string. -/
def channelWithHaproxy : VersionMeta :=
  { sampleMeta with Apply := "latest?haproxyVersion=2.3.14" }

/-- The sample query with the monitoring agent's version set. -/
def metaWithPmm : VersionMeta := { sampleMeta with PMMVersion := "2.41.0" }

/-- The sample query with a channel that holds a percent sign. -/
def channelPercent : VersionMeta := { sampleMeta with Apply := "a%2Fb" }

/-- The sample query with a channel that holds a space. -/
def channelSpace : VersionMeta := { sampleMeta with Apply := "a b" }

/-- The URL requested for the channel "a b". -/
def spaceURL : Url.URL :=
  { Scheme := "http", Host := "vs", Path := "/v1/pxc-operator/1.14.0/a b",
    RawPath := "/v1/pxc-operator/1.14.0/a b",
    RawQuery :=
      "customResourceUID=abc123&databaseVersion=8.0.32&kubeVersion=1.28&platform=kubernetes" }


/-- The sample query with a channel that holds reserved characters. -/
def channelReserved : VersionMeta := { sampleMeta with Apply := "a/b?c#d" }

/-! ## Lemmas on `getVersion` and the response handling -/

theorem getVersion_single (m : VersionMap) (k : String) (v : Version)
    (h : m.entries = [(k, v)]) : getVersion m = (k, none) := by
  simp [getVersion, VersionMap.len, VersionMap.keys, h]

theorem get_single (m : VersionMap) (k : String) (v : Version)
    (h : m.entries = [(k, v)]) : m.get k = v := by
  simp [VersionMap.get, h]

theorem getVersion_bad (m : VersionMap) (h : m.len ≠ 1) :
    getVersion m = ("", some errComponent) := by
  simp [getVersion, h, errComponent]

theorem getVersion_cases (m : VersionMap) :
    (m.len ≠ 1 ∧ getVersion m = ("", some errComponent)) ∨
    (∃ k v, m.entries = [(k, v)] ∧ getVersion m = (k, none)) := by
  by_cases h : m.len = 1
  · right
    obtain ⟨e, he⟩ := List.length_eq_one.mp h
    exact ⟨e.1, e.2, he, getVersion_single m e.1 e.2 he⟩
  · left
    exact ⟨h, getVersion_bad m h⟩

theorem GetExactVersion_of_received (env : Env) (vs : VersionServiceClient)
    (endpoint : String) (vm : VersionMeta) (resp : Response)
    (h : receivedResponse env vs endpoint vm = some resp) :
    GetExactVersion env vs endpoint vm =
      if resp.StatusCode ≠ StatusOK then
        ({}, some (.errorf ("received bad status code " ++ resp.Status)))
      else
        match env.Decode resp.Body with
        | .error err => ({}, some (.errorf ("failed to unmarshal response: " ++ err)))
        | .ok r => resolve r := by
  unfold receivedResponse at h
  unfold GetExactVersion
  cases hu : requestURL vs endpoint vm with
  | error e => simp [hu] at h
  | ok u =>
    simp only [hu] at h ⊢
    cases hq : NewRequest "GET" (Url.URL.String u) with
    | error e => simp [hq] at h
    | ok req =>
      simp only [hq] at h ⊢
      cases hd : env.Do (req.setHeader "Accept" "application/json") with
      | error e => simp [hd] at h
      | ok resp1 =>
        simp only [hd, Option.some.injEq] at h ⊢
        subst h
        rfl

theorem GetExactVersion_of_decoded (env : Env) (vs : VersionServiceClient)
    (endpoint : String) (vm : VersionMeta) (resp : Response) (r : VersionResponse)
    (h : receivedResponse env vs endpoint vm = some resp)
    (hok : resp.StatusCode = StatusOK) (hdec : env.Decode resp.Body = .ok r) :
    GetExactVersion env vs endpoint vm = resolve r := by
  rw [GetExactVersion_of_received env vs endpoint vm resp h]
  simp [hok, hdec]

theorem resolve_bad (r : VersionResponse) (first : OperatorVersion)
    (rest : List OperatorVersion) (hr : r.Versions = first :: rest)
    (h : first.Matrix.PXC.len ≠ 1 ∨ first.Matrix.Backup.len ≠ 1 ∨ first.Matrix.PMM.len ≠ 1 ∨
      first.Matrix.ProxySQL.len ≠ 1 ∨ first.Matrix.HAProxy.len ≠ 1) :
    resolve r = ({}, some errComponent) := by
  unfold resolve
  rw [hr]
  rcases getVersion_cases first.Matrix.PXC with ⟨_, e1⟩ | ⟨k1, v1, h1, e1⟩
  · simp [e1]
  rcases getVersion_cases first.Matrix.Backup with ⟨_, e2⟩ | ⟨k2, v2, h2, e2⟩
  · simp [e1, e2]
  rcases getVersion_cases first.Matrix.PMM with ⟨_, e3⟩ | ⟨k3, v3, h3, e3⟩
  · simp [e1, e2, e3]
  rcases getVersion_cases first.Matrix.ProxySQL with ⟨_, e4⟩ | ⟨k4, v4, h4, e4⟩
  · simp [e1, e2, e3, e4]
  rcases getVersion_cases first.Matrix.HAProxy with ⟨_, e5⟩ | ⟨k5, v5, h5, e5⟩
  · simp [e1, e2, e3, e4, e5]
  exfalso
  simp [VersionMap.len, h1, h2, h3, h4, h5] at h

theorem resolve_single (r : VersionResponse) (first : OperatorVersion)
    (rest : List OperatorVersion) (hr : r.Versions = first :: rest)
    (k1 k2 k3 k4 k5 : String) (v1 v2 v3 v4 v5 : Version)
    (h1 : first.Matrix.PXC.entries = [(k1, v1)])
    (h2 : first.Matrix.Backup.entries = [(k2, v2)])
    (h3 : first.Matrix.PMM.entries = [(k3, v3)])
    (h4 : first.Matrix.ProxySQL.entries = [(k4, v4)])
    (h5 : first.Matrix.HAProxy.entries = [(k5, v5)]) :
    resolve r =
      ({ PXCImage := v1.ImagePath, PXCVersion := k1,
         BackupImage := v2.ImagePath, BackupVersion := k2,
         ProxySqlImage := v4.ImagePath, ProxySqlVersion := k4,
         HAProxyImage := v5.ImagePath, HAProxyVersion := k5,
         PMMImage := v3.ImagePath, PMMVersion := k3 }, none) := by
  unfold resolve
  rw [hr]
  simp [getVersion_single _ _ _ h1, getVersion_single _ _ _ h2, getVersion_single _ _ _ h3,
    getVersion_single _ _ _ h4, getVersion_single _ _ _ h5, get_single _ _ _ h1,
    get_single _ _ _ h2, get_single _ _ _ h3, get_single _ _ _ h4, get_single _ _ _ h5]

theorem resolve_success (r : VersionResponse) (d : DepVersion) (h : resolve r = (d, none)) :
    ∃ first rest k1 k2 k3 k4 k5 v1 v2 v3 v4 v5,
      r.Versions = first :: rest ∧
      first.Matrix.PXC.entries = [(k1, v1)] ∧
      first.Matrix.Backup.entries = [(k2, v2)] ∧
      first.Matrix.PMM.entries = [(k3, v3)] ∧
      first.Matrix.ProxySQL.entries = [(k4, v4)] ∧
      first.Matrix.HAProxy.entries = [(k5, v5)] := by
  cases hr : r.Versions with
  | nil => simp [resolve, hr] at h
  | cons first rest =>
    refine ⟨first, rest, ?_⟩
    rcases getVersion_cases first.Matrix.PXC with ⟨b1, _⟩ | ⟨k1, v1, h1, _⟩
    · rw [resolve_bad r first rest hr (Or.inl b1)] at h
      simp at h
    rcases getVersion_cases first.Matrix.Backup with ⟨b2, _⟩ | ⟨k2, v2, h2, _⟩
    · rw [resolve_bad r first rest hr (Or.inr (Or.inl b2))] at h
      simp at h
    rcases getVersion_cases first.Matrix.PMM with ⟨b3, _⟩ | ⟨k3, v3, h3, _⟩
    · rw [resolve_bad r first rest hr (Or.inr (Or.inr (Or.inl b3)))] at h
      simp at h
    rcases getVersion_cases first.Matrix.ProxySQL with ⟨b4, _⟩ | ⟨k4, v4, h4, _⟩
    · rw [resolve_bad r first rest hr (Or.inr (Or.inr (Or.inr (Or.inl b4))))] at h
      simp at h
    rcases getVersion_cases first.Matrix.HAProxy with ⟨b5, _⟩ | ⟨k5, v5, h5, _⟩
    · rw [resolve_bad r first rest hr (Or.inr (Or.inr (Or.inr (Or.inr b5))))] at h
      simp at h
    exact ⟨k1, k2, k3, k4, k5, v1, v2, v3, v4, v5, rfl, h1, h2, h3, h4, h5⟩

set_option maxRecDepth 100000 in
theorem requestURL_sample : requestURL sampleClient "http://vs/" sampleMeta = .ok sampleURL :=
  rfl

set_option maxRecDepth 100000 in
theorem NewRequest_sample :
    NewRequest "GET" (Url.URL.String sampleURL) = .ok ⟨"GET", sampleURL, []⟩ :=
  rfl

theorem received_sample (resp : Response) (r : VersionResponse) :
    receivedResponse (constEnv resp r) sampleClient "http://vs/" sampleMeta = some resp := by
  simp only [receivedResponse, requestURL_sample, NewRequest_sample, constEnv]

theorem GetExactVersion_success (env : Env) (vs : VersionServiceClient)
    (endpoint : String) (vm : VersionMeta)
    (h : (GetExactVersion env vs endpoint vm).2 = none) :
    ∃ resp r, receivedResponse env vs endpoint vm = some resp ∧
      resp.StatusCode = StatusOK ∧ env.Decode resp.Body = .ok r ∧
      GetExactVersion env vs endpoint vm = resolve r := by
  unfold GetExactVersion at h
  unfold receivedResponse
  cases hu : requestURL vs endpoint vm with
  | error e => simp [hu] at h
  | ok u =>
    simp only [hu] at h ⊢
    cases hq : NewRequest "GET" (Url.URL.String u) with
    | error e => simp [hq] at h
    | ok req =>
      simp only [hq] at h ⊢
      cases hd : env.Do (req.setHeader "Accept" "application/json") with
      | error e => simp [hd] at h
      | ok resp =>
        simp only [hd] at h ⊢
        by_cases hs : resp.StatusCode = StatusOK
        · cases hdec : env.Decode resp.Body with
          | error e => simp [hs, hdec] at h
          | ok r =>
            refine ⟨resp, r, rfl, hs, hdec, ?_⟩
            unfold GetExactVersion
            simp [hu, hq, hd, hs, hdec]
        · simp [hs] at h

theorem resolve_same (first1 first2 : OperatorVersion) (rest1 rest2 : List OperatorVersion)
    (h : first1.Same first2) : resolve ⟨first1 :: rest1⟩ = resolve ⟨first2 :: rest2⟩ := by
  obtain ⟨_, _, p1, p3, p4, p5, p2⟩ := h
  by_cases hbad : first1.Matrix.PXC.len ≠ 1 ∨ first1.Matrix.Backup.len ≠ 1 ∨
      first1.Matrix.PMM.len ≠ 1 ∨ first1.Matrix.ProxySQL.len ≠ 1 ∨
      first1.Matrix.HAProxy.len ≠ 1
  · rw [resolve_bad ⟨first1 :: rest1⟩ first1 rest1 rfl hbad]
    rw [resolve_bad ⟨first2 :: rest2⟩ first2 rest2 rfl]
    simpa only [VersionMap.len, p1.length_eq, p2.length_eq, p3.length_eq, p4.length_eq,
      p5.length_eq] using hbad
  · simp only [not_or, not_not, VersionMap.len] at hbad
    obtain ⟨l1, l2, l3, l4, l5⟩ := hbad
    obtain ⟨e1, h1⟩ := List.length_eq_one.mp l1
    obtain ⟨e2, h2⟩ := List.length_eq_one.mp l2
    obtain ⟨e3, h3⟩ := List.length_eq_one.mp l3
    obtain ⟨e4, h4⟩ := List.length_eq_one.mp l4
    obtain ⟨e5, h5⟩ := List.length_eq_one.mp l5
    rw [resolve_single ⟨first1 :: rest1⟩ first1 rest1 rfl e1.1 e2.1 e3.1 e4.1 e5.1
      e1.2 e2.2 e3.2 e4.2 e5.2 h1 h2 h3 h4 h5]
    rw [h1] at p1
    rw [h2] at p2
    rw [h3] at p3
    rw [h4] at p4
    rw [h5] at p5
    rw [resolve_single ⟨first2 :: rest2⟩ first2 rest2 rfl e1.1 e2.1 e3.1 e4.1 e5.1
      e1.2 e2.2 e3.2 e4.2 e5.2 (List.singleton_perm.mp p1).symm (List.singleton_perm.mp p2).symm
      (List.singleton_perm.mp p3).symm (List.singleton_perm.mp p4).symm
      (List.singleton_perm.mp p5).symm]

theorem OperatorVersion.same_refl (a : OperatorVersion) : a.Same a :=
  ⟨rfl, rfl, List.Perm.refl _, List.Perm.refl _, List.Perm.refl _, List.Perm.refl _,
    List.Perm.refl _⟩

/-! ## The claims on the response handling -/

/-- C1: when a response is received with status 200 and decodes to a
`VersionResponse` whose first entry has exactly one key in each of its five
mappings, `GetExactVersion` returns no error and the `DepVersion` whose five
versions are those keys and whose five images are the `ImagePath` stored
under them. -/
theorem GetExactVersion_single_match (env : Env) (vs : VersionServiceClient)
    (endpoint : String) (vm : VersionMeta) (resp : Response) (r : VersionResponse)
    (first : OperatorVersion) (rest : List OperatorVersion)
    (kPXC kBackup kPMM kProxySQL kHAProxy : String)
    (vPXC vBackup vPMM vProxySQL vHAProxy : Version)
    (hresp : receivedResponse env vs endpoint vm = some resp)
    (hok : resp.StatusCode = StatusOK)
    (hdec : env.Decode resp.Body = .ok r)
    (hr : r.Versions = first :: rest)
    (hPXC : first.Matrix.PXC.entries = [(kPXC, vPXC)])
    (hBackup : first.Matrix.Backup.entries = [(kBackup, vBackup)])
    (hPMM : first.Matrix.PMM.entries = [(kPMM, vPMM)])
    (hProxySQL : first.Matrix.ProxySQL.entries = [(kProxySQL, vProxySQL)])
    (hHAProxy : first.Matrix.HAProxy.entries = [(kHAProxy, vHAProxy)]) :
    GetExactVersion env vs endpoint vm =
      ({ PXCImage := vPXC.ImagePath, PXCVersion := kPXC,
         BackupImage := vBackup.ImagePath, BackupVersion := kBackup,
         ProxySqlImage := vProxySQL.ImagePath, ProxySqlVersion := kProxySQL,
         HAProxyImage := vHAProxy.ImagePath, HAProxyVersion := kHAProxy,
         PMMImage := vPMM.ImagePath, PMMVersion := kPMM }, none) := by
  rw [GetExactVersion_of_decoded env vs endpoint vm resp r hresp hok hdec]
  exact resolve_single r first rest hr _ _ _ _ _ _ _ _ _ _ hPXC hBackup hPMM hProxySQL hHAProxy

/-- C1, at the sample query and `sampleMatrix`. -/
theorem GetExactVersion_single_match_witness :
    GetExactVersion (constEnv okResponse ⟨[sampleEntry]⟩) sampleClient "http://vs/" sampleMeta =
      (sampleResult, none) :=
  GetExactVersion_single_match (constEnv okResponse ⟨[sampleEntry]⟩) sampleClient "http://vs/"
    sampleMeta okResponse ⟨[sampleEntry]⟩ sampleEntry []
    "8.0.33-25.1" "8.0.33-28" "2.41.0" "2.5.5" "2.8.1"
    { ImagePath := "percona/pxc:8.0.33" } { ImagePath := "percona/xtrabackup:8.0.33" }
    { ImagePath := "percona/pmm-client:2.41.0" } { ImagePath := "percona/proxysql2:2.5.5" }
    { ImagePath := "percona/haproxy:2.8.1" }
    (received_sample _ _) rfl rfl rfl rfl rfl rfl rfl rfl

/-- C2: when a response is received with status 200 and decodes to a
`VersionResponse` whose first entry has a mapping with zero keys or with two
or more keys, `GetExactVersion` returns the empty `DepVersion` and the error
of `getVersion`, the same error in both cases and whatever the other
mappings hold. -/
theorem GetExactVersion_component_failure (env : Env) (vs : VersionServiceClient)
    (endpoint : String) (vm : VersionMeta) (resp : Response) (r : VersionResponse)
    (first : OperatorVersion) (rest : List OperatorVersion)
    (hresp : receivedResponse env vs endpoint vm = some resp)
    (hok : resp.StatusCode = StatusOK)
    (hdec : env.Decode resp.Body = .ok r)
    (hr : r.Versions = first :: rest)
    (hbad : first.Matrix.PXC.len ≠ 1 ∨ first.Matrix.Backup.len ≠ 1 ∨
      first.Matrix.PMM.len ≠ 1 ∨ first.Matrix.ProxySQL.len ≠ 1 ∨
      first.Matrix.HAProxy.len ≠ 1) :
    GetExactVersion env vs endpoint vm =
      ({}, some (.errorf "response has multiple or zero versions")) := by
  rw [GetExactVersion_of_decoded env vs endpoint vm resp r hresp hok hdec]
  exact resolve_bad r first rest hr hbad

/-- C2, at a first entry whose pooler mapping has two keys. -/
theorem GetExactVersion_component_failure_witness :
    twoKeys.len = 2 ∧
    GetExactVersion (constEnv okResponse ⟨[entryTwoProxySQL]⟩) sampleClient "http://vs/"
      sampleMeta = ({}, some (.errorf "response has multiple or zero versions")) :=
  ⟨rfl, GetExactVersion_component_failure (constEnv okResponse ⟨[entryTwoProxySQL]⟩)
    sampleClient "http://vs/" sampleMeta okResponse ⟨[entryTwoProxySQL]⟩ entryTwoProxySQL []
    (received_sample _ _) rfl rfl rfl (Or.inr (Or.inr (Or.inr (Or.inl (by decide)))))⟩

/-- C3: when a response is received with status 200 and decodes to a
`VersionResponse` without versions, `GetExactVersion` returns the empty
`DepVersion` and the error "empty versions response", which no call of
`getVersion` returns. -/
theorem GetExactVersion_empty_versions (env : Env) (vs : VersionServiceClient)
    (endpoint : String) (vm : VersionMeta) (resp : Response) (r : VersionResponse)
    (hresp : receivedResponse env vs endpoint vm = some resp)
    (hok : resp.StatusCode = StatusOK)
    (hdec : env.Decode resp.Body = .ok r)
    (hr : r.Versions = []) :
    GetExactVersion env vs endpoint vm = ({}, some (.errorf "empty versions response")) ∧
    ∀ m : VersionMap, (getVersion m).2 ≠ some (.errorf "empty versions response") := by
  constructor
  · rw [GetExactVersion_of_decoded env vs endpoint vm resp r hresp hok hdec]
    simp [resolve, hr]
  · intro m
    rcases getVersion_cases m with ⟨_, e⟩ | ⟨k, v, _, e⟩
    · rw [e]
      simp only [errComponent]
      decide
    · rw [e]
      simp

/-- C3, at the sample query and a response without versions. -/
theorem GetExactVersion_empty_versions_witness :
    GetExactVersion (constEnv okResponse ⟨[]⟩) sampleClient "http://vs/" sampleMeta =
      ({}, some (.errorf "empty versions response")) :=
  (GetExactVersion_empty_versions (constEnv okResponse ⟨[]⟩) sampleClient "http://vs/"
    sampleMeta okResponse ⟨[]⟩ (received_sample _ _) rfl rfl rfl).1

/-- C4: when a response is received whose status code is not 200,
`GetExactVersion` returns the empty `DepVersion` and the error "received bad
status code " followed by the status of the response, whatever the body of
the response is and whatever the decoder would make of it. -/
theorem GetExactVersion_bad_status (env : Env) (vs : VersionServiceClient)
    (endpoint : String) (vm : VersionMeta) (resp : Response)
    (hresp : receivedResponse env vs endpoint vm = some resp)
    (hstatus : resp.StatusCode ≠ StatusOK) :
    GetExactVersion env vs endpoint vm =
      ({}, some (.errorf ("received bad status code " ++ resp.Status))) ∧
    resp.Status.toList <:+ ("received bad status code " ++ resp.Status).toList := by
  constructor
  · rw [GetExactVersion_of_received env vs endpoint vm resp hresp]
    simp [hstatus]
  · simp only [String.toList, String.data_append]
    exact List.suffix_append _ _

/-- C4, at a response with status 503 whose body decodes to a matrix with
one key in each mapping. -/
theorem GetExactVersion_bad_status_witness :
    GetExactVersion (constEnv unavailableResponse ⟨[sampleEntry]⟩) sampleClient "http://vs/"
      sampleMeta = ({}, some (.errorf "received bad status code 503 Service Unavailable")) :=
  (GetExactVersion_bad_status (constEnv unavailableResponse ⟨[sampleEntry]⟩) sampleClient
    "http://vs/" sampleMeta unavailableResponse (received_sample _ _) (by decide)).1

/-- C8, refuted: a response whose database mapping is empty and a response
whose backup mapping is empty, alike otherwise, get the same error, which
names neither component. -/
theorem component_error_same_for_pxc_and_backup :
    ¬ ((GetExactVersion (constEnv okResponse ⟨[entryNoPXC]⟩) sampleClient "http://vs/"
          sampleMeta).2 ≠
        (GetExactVersion (constEnv okResponse ⟨[entryNoBackup]⟩) sampleClient "http://vs/"
          sampleMeta).2) ∧
    (GetExactVersion (constEnv okResponse ⟨[entryNoPXC]⟩) sampleClient "http://vs/"
      sampleMeta).2 = some (.errorf "response has multiple or zero versions") := by
  have hA := GetExactVersion_of_decoded (constEnv okResponse ⟨[entryNoPXC]⟩) sampleClient
    "http://vs/" sampleMeta okResponse ⟨[entryNoPXC]⟩ (received_sample _ _) rfl rfl
  have hB := GetExactVersion_of_decoded (constEnv okResponse ⟨[entryNoBackup]⟩) sampleClient
    "http://vs/" sampleMeta okResponse ⟨[entryNoBackup]⟩ (received_sample _ _) rfl rfl
  rw [hA, hB,
    resolve_bad ⟨[entryNoPXC]⟩ entryNoPXC [] rfl (Or.inl (by decide)),
    resolve_bad ⟨[entryNoBackup]⟩ entryNoBackup [] rfl (Or.inr (Or.inl (by decide)))]
  exact ⟨fun h => h rfl, rfl⟩

/-- C8, amended: when `GetExactVersion` fails because a mapping of the first
entry has zero or more than one key, the error is "response has multiple or
zero versions" whichever mapping it is: two such calls return the same
error, which does not identify the component. -/
theorem GetExactVersion_component_error_uniform (env1 env2 : Env)
    (vs1 vs2 : VersionServiceClient) (endpoint1 endpoint2 : String) (vm1 vm2 : VersionMeta)
    (resp1 resp2 : Response) (r1 r2 : VersionResponse) (first1 first2 : OperatorVersion)
    (rest1 rest2 : List OperatorVersion)
    (hresp1 : receivedResponse env1 vs1 endpoint1 vm1 = some resp1)
    (hok1 : resp1.StatusCode = StatusOK) (hdec1 : env1.Decode resp1.Body = .ok r1)
    (hr1 : r1.Versions = first1 :: rest1)
    (hbad1 : first1.Matrix.PXC.len ≠ 1 ∨ first1.Matrix.Backup.len ≠ 1 ∨
      first1.Matrix.PMM.len ≠ 1 ∨ first1.Matrix.ProxySQL.len ≠ 1 ∨
      first1.Matrix.HAProxy.len ≠ 1)
    (hresp2 : receivedResponse env2 vs2 endpoint2 vm2 = some resp2)
    (hok2 : resp2.StatusCode = StatusOK) (hdec2 : env2.Decode resp2.Body = .ok r2)
    (hr2 : r2.Versions = first2 :: rest2)
    (hbad2 : first2.Matrix.PXC.len ≠ 1 ∨ first2.Matrix.Backup.len ≠ 1 ∨
      first2.Matrix.PMM.len ≠ 1 ∨ first2.Matrix.ProxySQL.len ≠ 1 ∨
      first2.Matrix.HAProxy.len ≠ 1) :
    (GetExactVersion env1 vs1 endpoint1 vm1).2 = (GetExactVersion env2 vs2 endpoint2 vm2).2 ∧
    (GetExactVersion env1 vs1 endpoint1 vm1).2 =
      some (.errorf "response has multiple or zero versions") := by
  rw [GetExactVersion_of_decoded env1 vs1 endpoint1 vm1 resp1 r1 hresp1 hok1 hdec1,
    GetExactVersion_of_decoded env2 vs2 endpoint2 vm2 resp2 r2 hresp2 hok2 hdec2,
    resolve_bad r1 first1 rest1 hr1 hbad1, resolve_bad r2 first2 rest2 hr2 hbad2]
  exact ⟨rfl, rfl⟩

/-- C8 amended, at an empty database mapping and a pooler mapping with two
keys. -/
theorem GetExactVersion_component_error_uniform_witness :
    (GetExactVersion (constEnv okResponse ⟨[entryNoPXC]⟩) sampleClient "http://vs/"
      sampleMeta).2 =
    (GetExactVersion (constEnv okResponse ⟨[entryTwoProxySQL]⟩) sampleClient "http://vs/"
      sampleMeta).2 :=
  (GetExactVersion_component_error_uniform
    (constEnv okResponse ⟨[entryNoPXC]⟩) (constEnv okResponse ⟨[entryTwoProxySQL]⟩)
    sampleClient sampleClient "http://vs/" "http://vs/" sampleMeta sampleMeta
    okResponse okResponse ⟨[entryNoPXC]⟩ ⟨[entryTwoProxySQL]⟩ entryNoPXC entryTwoProxySQL [] []
    (received_sample _ _) rfl rfl rfl (Or.inl (by decide))
    (received_sample _ _) rfl rfl rfl (Or.inr (Or.inr (Or.inr (Or.inl (by decide)))))).1

/-- C9, refuted: on a response whose database mapping has the one key
"8.0.33-25.1" stored with an empty image path, `GetExactVersion` returns no
error and a `DepVersion` whose `PXCImage` is empty. -/
theorem success_with_empty_image :
    (GetExactVersion (constEnv okResponse ⟨[entryNoImage]⟩) sampleClient "http://vs/"
      sampleMeta).2 = none ∧
    (GetExactVersion (constEnv okResponse ⟨[entryNoImage]⟩) sampleClient "http://vs/"
      sampleMeta).1.PXCImage = "" := by
  rw [GetExactVersion_of_decoded (constEnv okResponse ⟨[entryNoImage]⟩) sampleClient
    "http://vs/" sampleMeta okResponse ⟨[entryNoImage]⟩ (received_sample _ _) rfl rfl]
  exact ⟨rfl, rfl⟩

/-- C9, amended: whenever `GetExactVersion` returns no error, a response was
received with status 200 and decoded, each of the five mappings of its first
entry has exactly one key, and the returned `DepVersion` carries for every
component that key as version and the `ImagePath` stored under it as image
(each of them empty exactly when it is empty in the response). -/
theorem GetExactVersion_success_all_five (env : Env) (vs : VersionServiceClient)
    (endpoint : String) (vm : VersionMeta)
    (h : (GetExactVersion env vs endpoint vm).2 = none) :
    ∃ resp r first rest kPXC kBackup kPMM kProxySQL kHAProxy vPXC vBackup vPMM vProxySQL
        vHAProxy,
      receivedResponse env vs endpoint vm = some resp ∧
      resp.StatusCode = StatusOK ∧ env.Decode resp.Body = .ok r ∧
      r.Versions = first :: rest ∧
      first.Matrix.PXC.entries = [(kPXC, vPXC)] ∧
      first.Matrix.Backup.entries = [(kBackup, vBackup)] ∧
      first.Matrix.PMM.entries = [(kPMM, vPMM)] ∧
      first.Matrix.ProxySQL.entries = [(kProxySQL, vProxySQL)] ∧
      first.Matrix.HAProxy.entries = [(kHAProxy, vHAProxy)] ∧
      (GetExactVersion env vs endpoint vm).1 =
        { PXCImage := vPXC.ImagePath, PXCVersion := kPXC,
          BackupImage := vBackup.ImagePath, BackupVersion := kBackup,
          ProxySqlImage := vProxySQL.ImagePath, ProxySqlVersion := kProxySQL,
          HAProxyImage := vHAProxy.ImagePath, HAProxyVersion := kHAProxy,
          PMMImage := vPMM.ImagePath, PMMVersion := kPMM } := by
  obtain ⟨resp, r, hresp, hok, hdec, hres⟩ := GetExactVersion_success env vs endpoint vm h
  rw [hres] at h
  obtain ⟨first, rest, k1, k2, k3, k4, k5, v1, v2, v3, v4, v5, hr, h1, h2, h3, h4, h5⟩ :=
    resolve_success r (resolve r).1 (Prod.ext rfl h)
  refine ⟨resp, r, first, rest, k1, k2, k3, k4, k5, v1, v2, v3, v4, v5, hresp, hok, hdec, hr,
    h1, h2, h3, h4, h5, ?_⟩
  rw [hres, resolve_single r first rest hr k1 k2 k3 k4 k5 v1 v2 v3 v4 v5 h1 h2 h3 h4 h5]

/-- C9 amended, at the sample query and `sampleMatrix`. -/
theorem GetExactVersion_success_all_five_witness :
    ∃ resp r first rest kPXC kBackup kPMM kProxySQL kHAProxy vPXC vBackup vPMM vProxySQL
        vHAProxy,
      receivedResponse (constEnv okResponse ⟨[sampleEntry]⟩) sampleClient "http://vs/"
        sampleMeta = some resp ∧
      resp.StatusCode = StatusOK ∧
      (constEnv okResponse ⟨[sampleEntry]⟩).Decode resp.Body = .ok r ∧
      r.Versions = first :: rest ∧
      first.Matrix.PXC.entries = [(kPXC, vPXC)] ∧
      first.Matrix.Backup.entries = [(kBackup, vBackup)] ∧
      first.Matrix.PMM.entries = [(kPMM, vPMM)] ∧
      first.Matrix.ProxySQL.entries = [(kProxySQL, vProxySQL)] ∧
      first.Matrix.HAProxy.entries = [(kHAProxy, vHAProxy)] ∧
      (GetExactVersion (constEnv okResponse ⟨[sampleEntry]⟩) sampleClient "http://vs/"
        sampleMeta).1 =
        { PXCImage := vPXC.ImagePath, PXCVersion := kPXC,
          BackupImage := vBackup.ImagePath, BackupVersion := kBackup,
          ProxySqlImage := vProxySQL.ImagePath, ProxySqlVersion := kProxySQL,
          HAProxyImage := vHAProxy.ImagePath, HAProxyVersion := kHAProxy,
          PMMImage := vPMM.ImagePath, PMMVersion := kPMM } :=
  GetExactVersion_success_all_five (constEnv okResponse ⟨[sampleEntry]⟩) sampleClient
    "http://vs/" sampleMeta (by
      rw [GetExactVersion_of_decoded (constEnv okResponse ⟨[sampleEntry]⟩) sampleClient
        "http://vs/" sampleMeta okResponse ⟨[sampleEntry]⟩ (received_sample _ _) rfl rfl]
      rfl)

/-- C10: two responses received with status 200 whose decoded `Versions` are
not empty and start with the same entry give the same `DepVersion` and the
same error, whatever the further entries hold. -/
theorem GetExactVersion_first_entry_only (env1 env2 : Env)
    (vs1 vs2 : VersionServiceClient) (endpoint1 endpoint2 : String) (vm1 vm2 : VersionMeta)
    (resp1 resp2 : Response) (r1 r2 : VersionResponse) (first1 first2 : OperatorVersion)
    (rest1 rest2 : List OperatorVersion)
    (hresp1 : receivedResponse env1 vs1 endpoint1 vm1 = some resp1)
    (hok1 : resp1.StatusCode = StatusOK) (hdec1 : env1.Decode resp1.Body = .ok r1)
    (hr1 : r1.Versions = first1 :: rest1)
    (hresp2 : receivedResponse env2 vs2 endpoint2 vm2 = some resp2)
    (hok2 : resp2.StatusCode = StatusOK) (hdec2 : env2.Decode resp2.Body = .ok r2)
    (hr2 : r2.Versions = first2 :: rest2)
    (hsame : first1.Same first2) :
    GetExactVersion env1 vs1 endpoint1 vm1 = GetExactVersion env2 vs2 endpoint2 vm2 := by
  rw [GetExactVersion_of_decoded env1 vs1 endpoint1 vm1 resp1 r1 hresp1 hok1 hdec1,
    GetExactVersion_of_decoded env2 vs2 endpoint2 vm2 resp2 r2 hresp2 hok2 hdec2]
  cases r1 with
  | mk l1 =>
    cases r2 with
    | mk l2 =>
      simp only at hr1 hr2
      subst hr1 hr2
      exact resolve_same first1 first2 rest1 rest2 hsame

/-- C10, at `sampleEntry` alone and `sampleEntry` followed by entries whose
mappings are empty or ambiguous. -/
theorem GetExactVersion_first_entry_only_witness :
    GetExactVersion (constEnv okResponse ⟨[sampleEntry]⟩) sampleClient "http://vs/"
      sampleMeta =
    GetExactVersion (constEnv okResponse ⟨[sampleEntry, entryNoPXC, entryTwoProxySQL]⟩)
      sampleClient "http://vs/" sampleMeta :=
  GetExactVersion_first_entry_only
    (constEnv okResponse ⟨[sampleEntry]⟩)
    (constEnv okResponse ⟨[sampleEntry, entryNoPXC, entryTwoProxySQL]⟩)
    sampleClient sampleClient "http://vs/" "http://vs/" sampleMeta sampleMeta
    okResponse okResponse ⟨[sampleEntry]⟩ ⟨[sampleEntry, entryNoPXC, entryTwoProxySQL]⟩
    sampleEntry sampleEntry [] [entryNoPXC, entryTwoProxySQL]
    (received_sample _ _) rfl rfl rfl (received_sample _ _) rfl rfl rfl
    (OperatorVersion.same_refl sampleEntry)

/-! ## Lemmas on the request URL -/

open Url

theorem Strings.cut_of_not_mem (sep : Char) (s : List Char) (h : sep ∉ s) :
    Strings.cut sep s = (s, [], false) := by
  induction s with
  | nil => rfl
  | cons c s ih =>
    have hc : c ≠ sep := fun e => h (by simp [e])
    have hs : sep ∉ s := fun e => h (List.mem_cons_of_mem _ e)
    simp [Strings.cut, hc, ih hs]

theorem Strings.cut_fst_subset (sep : Char) (s : List Char) :
    ∀ c ∈ (Strings.cut sep s).1, c ∈ s := by
  induction s with
  | nil => simp [Strings.cut]
  | cons a s ih =>
    intro c hc
    by_cases h : a = sep
    · simp [Strings.cut, h] at hc
    · simp only [Strings.cut, h, if_false, List.mem_cons] at hc ⊢
      rcases hc with hc | hc
      · exact Or.inl hc
      · exact Or.inr (ih c hc)

theorem Url.getSchemeLoop_rest (raw : List Char) (i : Nat) (s sch rest : List Char)
    (h : getSchemeLoop raw i s = .ok (sch, rest)) : rest = raw ∨ rest <:+ s := by
  induction s generalizing i with
  | nil =>
    simp [getSchemeLoop] at h
    exact Or.inl h.2.symm
  | cons c s ih =>
    unfold getSchemeLoop at h
    split at h
    · rcases ih _ h with h1 | h1
      · exact Or.inl h1
      · exact Or.inr (h1.trans (List.suffix_cons _ _))
    · split at h
      · split at h
        · simp at h
          exact Or.inl h.2.symm
        · rcases ih _ h with h1 | h1
          · exact Or.inl h1
          · exact Or.inr (h1.trans (List.suffix_cons _ _))
      · split at h
        · split at h
          · simp at h
          · simp at h
            exact Or.inr (h.2 ▸ List.suffix_cons _ _)
        · simp at h
          exact Or.inl h.2.symm

theorem Url.setPath_RawQuery (u u1 : URL) (p : List Char) (h : URL.setPath u p = .ok u1) :
    u1.RawQuery = u.RawQuery ∧ u1.Fragment = u.Fragment ∧ u1.Opaque = u.Opaque := by
  unfold URL.setPath at h
  split at h
  · simp at h
  · simp at h
    subst h
    exact ⟨rfl, rfl, rfl⟩

theorem Url.setFragment_RawQuery (u u1 : URL) (p : List Char)
    (h : URL.setFragment u p = .ok u1) : u1.RawQuery = u.RawQuery := by
  unfold URL.setFragment at h
  split at h
  · simp at h
  · simp at h
    subst h
    rfl

theorem Url.parseRest_RawQuery (u u1 : URL) (rest : List Char) (v : Bool)
    (h : parseRest u rest v = .ok u1) : u1.RawQuery = u.RawQuery := by
  unfold parseRest at h
  split at h
  · split at h
    · simp at h
    · exact (Url.setPath_RawQuery _ _ _ h).1
  · split at h
    · exact (Url.setPath_RawQuery _ _ _ h).1
    · exact (Url.setPath_RawQuery _ _ _ h).1

theorem Strings.hasSuffix_single_false (c : Char) (s : List Char) (h : c ∉ s) :
    Strings.hasSuffix [c] s = false := by
  unfold Strings.hasSuffix
  cases hr : s.reverse with
  | nil => rfl
  | cons a t =>
    have ha : a ∈ s := by
      have : a ∈ s.reverse := by rw [hr]; simp
      simpa using this
    have hne : c ≠ a := fun e => h (e ▸ ha)
    simp [List.isPrefixOf, hne]

theorem Url.parseQueryAndRest_RawQuery (u u1 : URL) (rest : List Char) (v : Bool)
    (hq : '?' ∉ rest) (h : parseQueryAndRest u rest v = .ok u1) : u1.RawQuery = "" := by
  unfold parseQueryAndRest at h
  simp only [Strings.hasSuffix_single_false '?' rest hq, Bool.false_and,
    Strings.cut_of_not_mem '?' rest hq, Bool.false_eq_true, if_false] at h
  split at h
  · split at h
    · simp at h
      subst h
      rfl
    · split at h
      · simp at h
      · split at h
        · simp at h
        · exact Url.parseRest_RawQuery _ _ _ _ h
  · exact Url.parseRest_RawQuery _ _ _ _ h

theorem Url.parse_RawQuery (raw : List Char) (u : URL) (hq : '?' ∉ raw)
    (h : parse raw false = .ok u) : u.RawQuery = "" := by
  unfold parse at h
  split at h
  · simp at h
  · split at h
    · simp at h
    · split at h
      · simp at h
        subst h
        rfl
      · split at h
        · simp at h
        · rename_i scheme rest hs
          refine Url.parseQueryAndRest_RawQuery _ _ rest false ?_ h
          rcases Url.getSchemeLoop_rest raw 0 raw scheme rest hs with h1 | h1
          · rw [h1]
            exact hq
          · exact fun hm => hq (h1.subset hm)

theorem Url.Parse_RawQuery (raw : String) (u : URL) (hq : '?' ∉ raw.toList)
    (h : Parse raw = .ok u) : u.RawQuery = "" := by
  unfold Parse at h
  have hq1 : '?' ∉ (Strings.cut '#' raw.toList).1 :=
    fun hm => hq (Strings.cut_fst_subset _ _ _ hm)
  split at h
  · simp at h
  · rename_i url hp
    have h0 := Url.parse_RawQuery _ url hq1 hp
    split at h
    · simp at h
      subst h
      exact h0
    · split at h
      · simp at h
      · rename_i url1 hf
        simp at h
        subst h
        rw [Url.setFragment_RawQuery _ _ _ hf]
        exact h0

theorem Strings.trimRight_prefix (cs s : List Char) : Strings.trimRight cs s <+: s := by
  induction s with
  | nil => exact List.prefix_refl _
  | cons c s ih =>
    unfold Strings.trimRight
    split
    · split
      · exact List.nil_prefix
      · simp
    · rename_i r rs hr
      rw [hr] at ih
      exact (List.prefix_cons_inj c).mpr ih

theorem requestURLText_toList (vs : VersionServiceClient) (endpoint : String)
    (vm : VersionMeta) :
    (requestURLText vs endpoint vm).toList =
      Strings.trimRight ['/'] endpoint.toList ++ "/v1/pxc-operator/".toList ++
        vs.OpVersion.toList ++ ['/'] ++ vm.Apply.toList := by
  simp [requestURLText, String.toList, String.data_append]

theorem Url.Query_of_empty (u : URL) (h : u.RawQuery = "") : URL.Query u = [] := by
  unfold URL.Query
  rw [h]
  rfl

theorem sortedKeys_mandatory (a b c d : List String) :
    Values.sortedKeys [("databaseVersion", a), ("kubeVersion", b), ("platform", c),
      ("customResourceUID", d)] =
    ["customResourceUID", "databaseVersion", "kubeVersion", "platform"] := by
  rfl

theorem Encode_mandatory (a b c d : String) :
    Values.Encode [("databaseVersion", [a]), ("kubeVersion", [b]), ("platform", [c]),
      ("customResourceUID", [d])] =
    "customResourceUID=" ++ QueryEscape d ++ "&databaseVersion=" ++ QueryEscape a ++
      "&kubeVersion=" ++ QueryEscape b ++ "&platform=" ++ QueryEscape c := by
  have e1 : QueryEscape "customResourceUID" = "customResourceUID" := by decide
  have e2 : QueryEscape "databaseVersion" = "databaseVersion" := by decide
  have e3 : QueryEscape "kubeVersion" = "kubeVersion" := by decide
  have e4 : QueryEscape "platform" = "platform" := by decide
  unfold Values.Encode Values.encodePairs
  rw [sortedKeys_mandatory]
  simp [Values.get, String.intercalate, String.intercalate.go, e1, e2, e3, e4]
  apply String.ext
  simp only [String.data_append, List.append_assoc]
  rfl

theorem Values.get_Add_self (q : Values) (k v : String) :
    Values.get (Values.Add q k v) k = Values.get q k ++ [v] := by
  induction q with
  | nil => simp [Values.Add, Values.get]
  | cons e q ih =>
    obtain ⟨k1, vs1⟩ := e
    by_cases h : k1 = k
    · simp [Values.Add, Values.get, h]
    · simp only [Values.Add, h, if_false]
      simp only [Values.get, List.find?, h, decide_False] at ih ⊢
      exact ih

theorem Values.get_Add_ne (q : Values) (k k1 v : String) (hne : k1 ≠ k) :
    Values.get (Values.Add q k v) k1 = Values.get q k1 := by
  induction q with
  | nil => simp [Values.Add, Values.get, Ne.symm hne]
  | cons e q ih =>
    obtain ⟨k2, vs2⟩ := e
    by_cases h : k2 = k
    · subst h
      simp [Values.Add, Values.get, Ne.symm hne]
    · simp only [Values.Add, h, if_false]
      by_cases h2 : k2 = k1
      · simp [Values.get, h2]
      · simp only [Values.get, List.find?, h2, decide_False] at ih ⊢
        exact ih

theorem Values.keys_Add (q : Values) (k v k1 : String) :
    k1 ∈ (Values.Add q k v).map Prod.fst ↔ k1 = k ∨ k1 ∈ q.map Prod.fst := by
  induction q with
  | nil => simp [Values.Add]
  | cons e q ih =>
    obtain ⟨k2, vs2⟩ := e
    by_cases h : k2 = k
    · subst h
      simp [Values.Add]
    · simp only [Values.Add, h, if_false, List.map_cons, List.mem_cons, ih]
      tauto

theorem Values.mem_keys_of_get (q : Values) (k v : String) (h : v ∈ Values.get q k) :
    k ∈ q.map Prod.fst := by
  unfold Values.get at h
  split at h
  · rename_i e he
    have h1 := List.find?_some he
    have h2 := List.mem_of_find?_eq_some he
    simp at h1
    exact List.mem_map.mpr ⟨e, h2, h1⟩
  · simp at h

theorem Values.mem_encodePairs (q : Values) (p : String) :
    p ∈ Values.encodePairs q ↔
      ∃ k ∈ q.map Prod.fst, ∃ v ∈ Values.get q k, p = QueryEscape k ++ "=" ++ QueryEscape v := by
  unfold Values.encodePairs Values.sortedKeys
  simp only [List.mem_flatMap, List.mem_insertionSort, List.mem_map]
  constructor
  · rintro ⟨k, hk, v, hv, rfl⟩
    exact ⟨k, hk, v, hv, rfl⟩
  · rintro ⟨k, hk, v, hv, rfl⟩
    exact ⟨k, hk, v, hv, rfl⟩

theorem Strings.split_of_not_mem (sep : Char) (a : List Char) (h : sep ∉ a) :
    Strings.split sep a = [a] := by
  induction a with
  | nil => rfl
  | cons c a ih =>
    have hc : c ≠ sep := fun e => h (by simp [e])
    have ha : sep ∉ a := fun e => h (List.mem_cons_of_mem _ e)
    simp [Strings.split, hc, ih ha]

theorem Strings.split_append_sep (sep : Char) (a rest : List Char) (h : sep ∉ a) :
    Strings.split sep (a ++ sep :: rest) = a :: Strings.split sep rest := by
  induction a with
  | nil => simp [Strings.split]
  | cons c a ih =>
    have hc : c ≠ sep := fun e => h (by simp [e])
    have ha : sep ∉ a := fun e => h (List.mem_cons_of_mem _ e)
    simp [Strings.split, hc, ih ha]

theorem intercalate_go_data (acc s : String) (l : List String) :
    (String.intercalate.go acc s l).data =
      acc.data ++ (l.map (fun a => s.data ++ a.data)).flatten := by
  induction l generalizing acc with
  | nil => simp [String.intercalate.go]
  | cons a l ih => simp [String.intercalate.go, ih, String.data_append]

theorem Strings.split_pieces (a : String) (l : List String)
    (h : ∀ p ∈ a :: l, '&' ∉ p.data) :
    Strings.split '&' (a.data ++ (l.map (fun p => "&".data ++ p.data)).flatten) =
      (a :: l).map String.data := by
  induction l generalizing a with
  | nil =>
    simp only [List.map_nil, List.flatten_nil, List.append_nil, List.map_cons]
    exact Strings.split_of_not_mem _ _ (h a (by simp))
  | cons b l ih =>
    have hb := ih b (fun p hp => h p (List.mem_cons_of_mem _ hp))
    have e : "&".data = ['&'] := rfl
    simp only [List.map_cons, List.flatten_cons, e, List.singleton_append,
      List.cons_append, List.nil_append] at hb ⊢
    rw [Strings.split_append_sep _ _ _ (h a (by simp)), hb]

theorem Strings.split_intercalate (l : List String) (hl : l ≠ [])
    (h : ∀ p ∈ l, '&' ∉ p.data) :
    Strings.split '&' (String.intercalate "&" l).toList = l.map String.data := by
  cases l with
  | nil => exact absurd rfl hl
  | cons a l =>
    simp only [String.intercalate, String.toList, intercalate_go_data]
    exact Strings.split_pieces a l h

theorem Url.upperhex_mem (n : Nat) :
    upperhex n ∈ ['0', '1', '2', '3', '4', '5', '6', '7', '8', '9', 'A', 'B', 'C', 'D', 'E', 'F'] := by
  unfold upperhex
  rcases Nat.lt_or_ge n 16 with h | h
  · interval_cases n <;> simp
  · rw [List.getD_eq_default _ _ (by simpa using h)]
    simp

theorem Url.escape_query_no_amp (s : List Char) : '&' ∉ escape .encodeQueryComponent s := by
  induction s with
  | nil => simp [escape]
  | cons c s ih =>
    unfold escape
    have h1 := Url.upperhex_mem (byte c / 16)
    have h2 := Url.upperhex_mem (byte c % 16)
    have n1 : upperhex (byte c / 16) ≠ '&' := by
      intro e; rw [e] at h1; revert h1; decide
    have n2 : upperhex (byte c % 16) ≠ '&' := by
      intro e; rw [e] at h2; revert h2; decide
    split
    · simp [ih]
    · split
      · simp [ih, Ne.symm n1, Ne.symm n2]
      · rename_i hs
        have : c ≠ '&' := by
          intro e
          rw [e] at hs
          exact hs (by decide)
        simp [ih, Ne.symm this]

theorem Url.pair_no_amp (k v : String) :
    '&' ∉ (QueryEscape k ++ "=" ++ QueryEscape v).data := by
  simp only [QueryEscape, String.data_append, List.mem_append, not_or]
  exact ⟨⟨Url.escape_query_no_amp _, by decide⟩, Url.escape_query_no_amp _⟩

theorem queryParts_Encode (u : URL) (q : Values) (h : u.RawQuery = Values.Encode q)
    (hne : Values.encodePairs q ≠ []) : queryParts u = Values.encodePairs q := by
  unfold queryParts
  rw [h, Values.Encode, Strings.split_intercalate _ hne]
  · simp only [List.map_map]
    exact List.map_id _
  · intro p hp
    obtain ⟨k, _, v, _, rfl⟩ := (Values.mem_encodePairs q p).mp hp
    exact Url.pair_no_amp k v

theorem requestURL_ok (vs : VersionServiceClient) (endpoint : String) (vm : VersionMeta)
    (u : URL) (h : requestURL vs endpoint vm = .ok u) :
    ∃ p, Parse (requestURLText vs endpoint vm) = .ok p ∧
      u = { p with RawQuery := Values.Encode (requestQuery p vm) } := by
  unfold requestURL at h
  split at h
  · simp at h
  · rename_i p hp
    simp at h
    exact ⟨p, hp, h.symm⟩

theorem requestURLText_no_question (vs : VersionServiceClient) (endpoint : String)
    (vm : VersionMeta) (he : '?' ∉ endpoint.toList) (ho : '?' ∉ vs.OpVersion.toList)
    (ha : '?' ∉ vm.Apply.toList) : '?' ∉ (requestURLText vs endpoint vm).toList := by
  rw [requestURLText_toList]
  simp only [List.mem_append, not_or]
  refine ⟨⟨⟨⟨?_, by decide⟩, ho⟩, by decide⟩, ha⟩
  exact fun hm => he ((Strings.trimRight_prefix _ _).subset hm)

theorem requestQuery_mem (p : URL) (vm : VersionMeta) :
    (vm.PMMVersion ≠ "" → vm.PMMVersion ∈ Values.get (requestQuery p vm) "pmmVersion") ∧
    (vm.BackupVersion ≠ "" →
      vm.BackupVersion ∈ Values.get (requestQuery p vm) "backupVersion") ∧
    (vm.ProxySqlVersion ≠ "" →
      vm.ProxySqlVersion ∈ Values.get (requestQuery p vm) "proxysqlVersion") ∧
    (vm.HAProxyVersion ≠ "" →
      vm.HAProxyVersion ∈ Values.get (requestQuery p vm) "haproxyVersion") := by
  refine ⟨?_, ?_, ?_, ?_⟩ <;> intro h <;> simp only [requestQuery] <;> split_ifs <;>
    simp [Values.get_Add_self, Values.get_Add_ne]



theorem key_eq_of_prefix (n k x : List Char) (hn : '=' ∉ n) (hk : '=' ∉ k)
    (h : (n ++ ['=']) <+: (k ++ '=' :: x)) : n = k := by
  induction n generalizing k with
  | nil =>
    cases k with
    | nil => rfl
    | cons c k =>
      simp only [List.nil_append, List.cons_append, List.cons_prefix_cons] at h
      exact absurd (by simp [← h.1]) hk
  | cons a n ih =>
    cases k with
    | nil =>
      simp only [List.nil_append, List.cons_append, List.cons_prefix_cons] at h
      exact absurd (by simp [h.1]) hn
    | cons c k =>
      simp only [List.cons_append, List.cons_prefix_cons] at h
      rw [h.1, ih k (fun e => hn (List.mem_cons_of_mem _ e))
        (fun e => hk (List.mem_cons_of_mem _ e)) h.2]

theorem requestQuery_keys (p : URL) (vm : VersionMeta) (hq : URL.Query p = []) (k : String)
    (hk : k ∈ (requestQuery p vm).map Prod.fst) :
    k = "databaseVersion" ∨ k = "kubeVersion" ∨ k = "platform" ∨ k = "customResourceUID" ∨
    (k = "pmmVersion" ∧ vm.PMMVersion ≠ "") ∨ (k = "backupVersion" ∧ vm.BackupVersion ≠ "") ∨
    (k = "proxysqlVersion" ∧ vm.ProxySqlVersion ≠ "") ∨
    (k = "haproxyVersion" ∧ vm.HAProxyVersion ≠ "") := by
  simp only [requestQuery, hq] at hk
  split_ifs at hk <;>
    simp only [Values.keys_Add, List.map_nil, List.not_mem_nil, or_false] at hk <;> tauto

theorem requestQuery_pairs_ne_nil (p : URL) (vm : VersionMeta) :
    Values.encodePairs (requestQuery p vm) ≠ [] := by
  have h : vm.CRUID ∈ Values.get (requestQuery p vm) "customResourceUID" := by
    simp only [requestQuery]
    split_ifs <;> simp [Values.get_Add_self, Values.get_Add_ne]
  intro e
  have := (Values.mem_encodePairs (requestQuery p vm) _).mpr
    ⟨"customResourceUID", Values.mem_keys_of_get _ _ _ h, vm.CRUID, h, rfl⟩
  rw [e] at this
  simp at this

/-- The eight parameter names are written unescaped and hold no `=`. -/
theorem name_plain (k : String)
    (hk : k = "databaseVersion" ∨ k = "kubeVersion" ∨ k = "platform" ∨
      k = "customResourceUID" ∨ k = "pmmVersion" ∨ k = "backupVersion" ∨
      k = "proxysqlVersion" ∨ k = "haproxyVersion") :
    QueryEscape k = k ∧ '=' ∉ k.toList := by
  rcases hk with h | h | h | h | h | h | h | h <;> subst h <;> decide

theorem queryHasKey_false (u : URL) (q : Values) (name : String)
    (h : u.RawQuery = Values.Encode q) (hne : Values.encodePairs q ≠ [])
    (hname : '=' ∉ name.toList)
    (hkeys : ∀ k ∈ q.map Prod.fst, k ≠ name ∧ QueryEscape k = k ∧ '=' ∉ k.toList) :
    queryHasKey u name = false := by
  unfold queryHasKey
  rw [queryParts_Encode u q h hne, List.any_eq_false]
  intro p hp
  obtain ⟨k, hk, v, _, rfl⟩ := (Values.mem_encodePairs q p).mp hp
  obtain ⟨h1, h2, h3⟩ := hkeys k hk
  rw [h2]
  intro hpre
  rw [List.isPrefixOf_iff_prefix] at hpre
  apply h1
  have := key_eq_of_prefix name.toList k.toList (QueryEscape v).toList hname h3
    (by simpa [String.toList, String.data_append] using hpre)
  exact (String.ext this).symm

theorem mem_queryParts_of_get (p : URL) (vm : VersionMeta) (name value : String)
    (h : value ∈ Values.get (requestQuery p vm) name) :
    QueryEscape name ++ "=" ++ QueryEscape value ∈
      queryParts { p with RawQuery := Values.Encode (requestQuery p vm) } := by
  rw [queryParts_Encode _ (requestQuery p vm) rfl (requestQuery_pairs_ne_nil p vm)]
  exact (Values.mem_encodePairs _ _).mpr
    ⟨name, Values.mem_keys_of_get _ _ _ h, value, h, rfl⟩

theorem optional_absent (p : URL) (vm : VersionMeta) (hq : URL.Query p = []) (name : String)
    (hname : (name = "pmmVersion" ∧ vm.PMMVersion = "") ∨
      (name = "backupVersion" ∧ vm.BackupVersion = "") ∨
      (name = "proxysqlVersion" ∧ vm.ProxySqlVersion = "") ∨
      (name = "haproxyVersion" ∧ vm.HAProxyVersion = "")) :
    queryHasKey { p with RawQuery := Values.Encode (requestQuery p vm) } name = false := by
  refine queryHasKey_false _ (requestQuery p vm) name rfl (requestQuery_pairs_ne_nil p vm)
    ?_ ?_
  · rcases hname with h | h | h | h <;> rw [h.1] <;> decide
  · intro k hk
    have hk1 := requestQuery_keys p vm hq k hk
    refine ⟨?_, name_plain k (by tauto)⟩
    intro e
    subst e
    rcases hname with h | h | h | h <;> obtain ⟨h1, h2⟩ := h <;> subst h1 <;>
      simp [h2] at hk1

set_option maxRecDepth 100000 in
theorem requestURL_metaWithPmm :
    requestURL sampleClient "http://vs/" metaWithPmm =
      .ok { sampleURL with RawQuery :=
        "customResourceUID=abc123&databaseVersion=8.0.32&kubeVersion=1.28" ++
          "&platform=kubernetes&pmmVersion=2.41.0" } :=
  rfl


theorem Url.unescape_path_plain (b : List Char) (h : '%' ∉ b) :
    unescape .encodePath b = .ok b := by
  induction b with
  | nil => rfl
  | cons c b ih =>
    have hc : c ≠ '%' := fun e => h (by simp [e])
    have hb : '%' ∉ b := fun e => h (List.mem_cons_of_mem _ e)
    unfold unescape
    rw [ih hb]
    by_cases hp : c = '+'
    · simp [hc, hp]
    · simp [hc, hp]

theorem Url.unescape_path_append (n : Nat) (a b r : List Char) (hn : a.length ≤ n)
    (hb : '%' ∉ b) (h : unescape .encodePath (a ++ '/' :: b) = .ok r) :
    ∃ ra, r = ra ++ '/' :: b := by
  induction n generalizing a r with
  | zero =>
    have : a = [] := List.length_eq_zero.mp (Nat.le_zero.mp hn)
    subst this
    rw [List.nil_append, Url.unescape_path_plain _ (by simpa using hb)] at h
    simp at h
    exact ⟨[], by simp [h]⟩
  | succ n ih =>
    cases a with
    | nil =>
      rw [List.nil_append, Url.unescape_path_plain _ (by simpa using hb)] at h
      simp at h
      exact ⟨[], by simp [h]⟩
    | cons c a =>
      simp only [List.length_cons, Nat.add_le_add_iff_right] at hn
      by_cases hc : c = '%'
      · subst hc
        cases a with
        | nil =>
          cases b with
          | nil => simp [unescape] at h
          | cons y t =>
            have : ishex '/' = false := by decide
            simp [unescape, this] at h
        | cons x a =>
          cases a with
          | nil =>
            have : ishex '/' = false := by decide
            simp [unescape, this] at h
          | cons y t =>
            simp only [List.cons_append, unescape, if_true] at h
            split at h
            · simp at h
            · split at h
              · simp at h
              · split at h
                · simp at h
                · split at h
                  · rename_i r1 hr1
                    simp at h
                    obtain ⟨ra, hra⟩ := ih t r1 (by simp at hn; omega) hr1
                    exact ⟨_ :: ra, by rw [← h, hra]; rfl⟩
                  · simp at h
      · by_cases hp : c = '+'
        · subst hp
          rw [List.cons_append] at h
          unfold unescape at h
          simp only [hc, if_false, if_true] at h
          split at h
          · rename_i r1 hr1
            simp at h
            obtain ⟨ra, hra⟩ := ih a r1 hn hr1
            exact ⟨_ :: ra, by rw [← h, hra]; rfl⟩
          · simp at h
        · rw [List.cons_append] at h
          unfold unescape at h
          simp only [hc, hp, if_false] at h
          split at h
          · simp at h
          · split at h
            · rename_i r1 hr1
              simp at h
              obtain ⟨ra, hra⟩ := ih a r1 hn hr1
              exact ⟨_ :: ra, by rw [← h, hra]; rfl⟩
            · simp at h

theorem Url.getSchemeLoop_split (raw : List Char) (i : Nat) (a b sch rest : List Char)
    (h : getSchemeLoop raw i (a ++ '/' :: b) = .ok (sch, rest)) :
    rest = raw ∨ ∃ a1, a1 <:+ a ∧ rest = a1 ++ '/' :: b := by
  induction a generalizing i with
  | nil =>
    left
    have e1 : isLetter '/' = false := by decide
    have e2 : isDigit '/' = false := by decide
    simp [getSchemeLoop, e1, e2] at h
    exact h.2.symm
  | cons c a ih =>
    rw [List.cons_append] at h
    unfold getSchemeLoop at h
    have lift : (rest = raw ∨ ∃ a1, a1 <:+ a ∧ rest = a1 ++ '/' :: b) →
        (rest = raw ∨ ∃ a1, a1 <:+ c :: a ∧ rest = a1 ++ '/' :: b) := by
      rintro (h1 | ⟨a1, h1, h2⟩)
      · exact Or.inl h1
      · exact Or.inr ⟨a1, h1.trans (List.suffix_cons _ _), h2⟩
    split at h
    · exact lift (ih _ h)
    · split at h
      · split at h
        · simp at h
          exact Or.inl h.2.symm
        · exact lift (ih _ h)
      · split at h
        · split at h
          · simp at h
          · simp at h
            exact Or.inr ⟨a, List.suffix_cons _ _, h.2.symm⟩
        · simp at h
          exact Or.inl h.2.symm

theorem Strings.cut_slash_append (a b : List Char) :
    (Strings.cut '/' (a ++ '/' :: b)).2.2 = true ∧
    ∃ a1, '/' :: (Strings.cut '/' (a ++ '/' :: b)).2.1 = a1 ++ '/' :: b := by
  induction a with
  | nil => exact ⟨by simp [Strings.cut], [], by simp [Strings.cut]⟩
  | cons c a ih =>
    by_cases hc : c = '/'
    · subst hc
      exact ⟨by simp [Strings.cut], '/' :: a, by simp [Strings.cut]⟩
    · obtain ⟨h1, a1, h2⟩ := ih
      exact ⟨by simp [Strings.cut, hc, h1], a1, by simp [Strings.cut, hc, h2]⟩

theorem Strings.trimRight_not_suffix (c : Char) (s : List Char) :
    ¬ [c] <:+ Strings.trimRight [c] s := by
  induction s with
  | nil =>
    intro h
    have := h.length_le
    simp [Strings.trimRight] at this
  | cons a s ih =>
    unfold Strings.trimRight
    split
    · split
      · intro h
        have := h.length_le
        simp at this
      · rename_i hne
        intro h
        have := h.eq_of_length rfl
        simp at this
        exact hne (by simp [this])
    · rename_i r rs hr
      rw [hr] at ih
      intro h
      apply ih
      obtain ⟨t, ht⟩ := h
      cases t with
      | nil => simp at ht
      | cons x t =>
        simp at ht
        exact ⟨t, ht.2⟩

theorem Strings.trimRight_spec (c : Char) (s : List Char) :
    ∃ n, s = Strings.trimRight [c] s ++ List.replicate n c := by
  induction s with
  | nil => exact ⟨0, rfl⟩
  | cons a s ih =>
    obtain ⟨n, hn⟩ := ih
    unfold Strings.trimRight
    split
    · rename_i hnil
      rw [hnil] at hn
      simp only [List.nil_append] at hn
      split
      · rename_i hmem
        simp at hmem
        subst hmem
        refine ⟨n + 1, ?_⟩
        rw [List.nil_append, List.replicate_succ, ← hn]
      · refine ⟨n, ?_⟩
        rw [List.singleton_append, ← hn]
    · rename_i r rs hr
      rw [hr] at hn
      exact ⟨n, by rw [List.cons_append, ← hn]⟩

theorem Strings.split_ne_nil (sep : Char) (a : List Char) : Strings.split sep a ≠ [] := by
  cases a with
  | nil => simp [Strings.split]
  | cons c a =>
    unfold Strings.split
    split
    · simp
    · split <;> simp

theorem Strings.split_append (sep : Char) (a rest : List Char) :
    Strings.split sep (a ++ sep :: rest) = Strings.split sep a ++ Strings.split sep rest := by
  induction a with
  | nil => simp [Strings.split]
  | cons c a ih =>
    by_cases hc : c = sep
    · simp [Strings.split, hc, ih]
    · have e : ∀ l, Strings.split sep (c :: l) =
          match Strings.split sep l with
          | [] => [[c]]
          | seg :: segs => (c :: seg) :: segs := by
        intro l
        rw [Strings.split]
        simp only [hc, if_false]
      rw [List.cons_append, e, e, ih]
      cases hs : Strings.split sep a with
      | nil => exact absurd hs (Strings.split_ne_nil _ _)
      | cons seg segs => simp

theorem pathSegments_suffix (s : String) (base op ch : List Char)
    (ho : '/' ∉ op) (hc : '/' ∉ ch)
    (h : s.toList = base ++ '/' :: 'v' :: ("1/pxc-operator/".toList ++ op ++ '/' :: ch)) :
    ∃ segs, pathSegments s = segs ++ ["v1", "pxc-operator", String.mk op, String.mk ch] := by
  refine ⟨(Strings.split '/' base).map String.mk, ?_⟩
  unfold pathSegments
  rw [h, Strings.split_append]
  have e : 'v' :: ("1/pxc-operator/".toList ++ op ++ '/' :: ch) =
      "v1".toList ++ '/' :: ("pxc-operator".toList ++ '/' :: (op ++ '/' :: ch)) := by
    simp [String.toList]
  rw [e, Strings.split_append_sep _ _ _ (by decide),
    Strings.split_append_sep _ _ _ (by decide), Strings.split_append_sep _ _ _ ho,
    Strings.split_of_not_mem _ _ hc]
  simp

theorem requestURLText_mk (vs : VersionServiceClient) (endpoint : String) (vm : VersionMeta) :
    requestURLText vs endpoint vm =
      String.mk (Strings.trimRight ['/'] endpoint.toList ++ '/' :: 'v' ::
        ("1/pxc-operator/".toList ++ vs.OpVersion.toList ++ '/' :: vm.Apply.toList)) := by
  apply String.ext
  have := requestURLText_toList vs endpoint vm
  simp only [String.toList] at this
  rw [this]
  simp [String.toList]


theorem Url.unhex_upperhex (n : Nat) (h : n < 16) :
    unhex (upperhex n) = n ∧ ishex (upperhex n) = true := by
  interval_cases n <;> decide

theorem Url.unescape_escape_query (s : List Char) (hs : ∀ c ∈ s, c.toNat < 256) :
    unescape .encodeQueryComponent (escape .encodeQueryComponent s) = .ok s := by
  induction s with
  | nil => rfl
  | cons c s ih =>
    have ih1 := ih (fun x hx => hs x (List.mem_cons_of_mem _ hx))
    have hc : c.toNat < 256 := hs c (by simp)
    unfold escape
    by_cases h1 : c = ' '
    · subst h1
      simp only [true_and, if_true]
      unfold unescape
      simp [ih1]
    · simp only [h1, false_and, if_false]
      by_cases h2 : shouldEscape c .encodeQueryComponent = true
      · simp only [h2, if_true]
        have hb : byte c = c.toNat := Nat.mod_eq_of_lt hc
        have l1 : byte c / 16 < 16 := by rw [hb]; omega
        have l2 : byte c % 16 < 16 := Nat.mod_lt _ (by decide)
        obtain ⟨u1, x1⟩ := Url.unhex_upperhex _ l1
        obtain ⟨u2, x2⟩ := Url.unhex_upperhex _ l2
        unfold unescape
        simp only [if_true, x1, x2, Bool.not_true, Bool.or_self, Bool.false_eq_true, if_false,
          ih1, u1, u2]
        have e : byte c / 16 * 16 + byte c % 16 = c.toNat := by rw [hb]; omega
        simp [e]
      · simp only [h2, if_false]
        have n1 : c ≠ '%' := by
          intro e
          rw [e] at h2
          exact h2 (by decide)
        have n2 : c ≠ '+' := by
          intro e
          rw [e] at h2
          exact h2 (by decide)
        unfold unescape
        simp [n1, n2, ih1]

theorem Url.QueryUnescape_QueryEscape (s : String) (hs : IsBytes s) :
    QueryUnescape (QueryEscape s) = .ok s := by
  unfold QueryUnescape QueryEscape
  simp only [String.toList]
  rw [Url.unescape_escape_query s.data hs]

theorem Url.escape_query_not_mem (x : Char) (hx : x = '&' ∨ x = '=' ∨ x = ';')
    (s : List Char) : x ∉ escape .encodeQueryComponent s := by
  induction s with
  | nil => simp [escape]
  | cons c s ih =>
    unfold escape
    have h1 := Url.upperhex_mem (byte c / 16)
    have h2 := Url.upperhex_mem (byte c % 16)
    have n1 : upperhex (byte c / 16) ≠ x := by
      intro e; rw [e] at h1; revert h1
      rcases hx with h | h | h <;> subst h <;> decide
    have n2 : upperhex (byte c % 16) ≠ x := by
      intro e; rw [e] at h2; revert h2
      rcases hx with h | h | h <;> subst h <;> decide
    have n3 : x ≠ '+' ∧ x ≠ '%' := by
      rcases hx with h | h | h <;> subst h <;> decide
    split
    · simp [ih, n3.1]
    · split
      · simp [ih, Ne.symm n1, Ne.symm n2, n3.2]
      · rename_i hs
        have : c ≠ x := by
          intro e
          rw [e] at hs
          apply hs
          rcases hx with h | h | h <;> subst h <;> decide
        simp [ih, Ne.symm this]

theorem Strings.cut_append_sep (sep : Char) (a b : List Char) (h : sep ∉ a) :
    Strings.cut sep (a ++ sep :: b) = (a, b, true) := by
  induction a with
  | nil => simp [Strings.cut]
  | cons c a ih =>
    have hc : c ≠ sep := fun e => h (by simp [e])
    have ha : sep ∉ a := fun e => h (List.mem_cons_of_mem _ e)
    simp [Strings.cut, hc, ih ha]

theorem Url.parseQueryStep_pair (m : Values) (k v : String) (hk : IsBytes k)
    (hv : IsBytes v) :
    parseQueryStep m (QueryEscape k ++ "=" ++ QueryEscape v).toList = Values.Add m k v := by
  have e : (QueryEscape k ++ "=" ++ QueryEscape v).toList =
      escape .encodeQueryComponent k.toList ++ '=' :: escape .encodeQueryComponent v.toList := by
    simp [QueryEscape, String.toList]
  rw [e]
  unfold parseQueryStep
  have c1 : Strings.contains ';' (escape .encodeQueryComponent k.toList ++
      '=' :: escape .encodeQueryComponent v.toList) = false := by
    have a1 := Url.escape_query_not_mem ';' (by simp) k.toList
    have a2 := Url.escape_query_not_mem ';' (by simp) v.toList
    simp [Strings.contains, a1, a2]
    exact ⟨fun x hx e => a1 (e ▸ hx), fun x hx e => a2 (e ▸ hx)⟩
  rw [c1, Strings.cut_append_sep _ _ _ (Url.escape_query_not_mem '=' (by simp) k.toList)]
  simp only [Bool.false_eq_true, if_false, List.append_eq_nil, List.cons_ne_nil,
    and_false, Url.unescape_escape_query _ hk, Url.unescape_escape_query _ hv]
  rfl

theorem Values.encodePairs_eq (q : Values) :
    Values.encodePairs q =
      (Values.sortedPairs q).map (fun e => QueryEscape e.1 ++ "=" ++ QueryEscape e.2) := by
  unfold Values.encodePairs Values.sortedPairs
  simp [List.map_flatMap, Function.comp_def]

theorem Url.foldl_parseQueryStep (m : Values) (l : List (String × String))
    (h : ∀ e ∈ l, IsBytes e.1 ∧ IsBytes e.2) :
    (l.map (fun e => (QueryEscape e.1 ++ "=" ++ QueryEscape e.2).data)).foldl
        parseQueryStep m =
      l.foldl (fun m e => Values.Add m e.1 e.2) m := by
  induction l generalizing m with
  | nil => rfl
  | cons e l ih =>
    simp only [List.map_cons, List.foldl_cons]
    have := Url.parseQueryStep_pair m e.1 e.2 (h e (by simp)).1 (h e (by simp)).2
    simp only [String.toList] at this
    rw [this]
    exact ih _ (fun x hx => h x (List.mem_cons_of_mem _ hx))

theorem Url.Query_Encode (u : URL) (q : Values) (hu : u.RawQuery = Values.Encode q)
    (h : ∀ e ∈ Values.sortedPairs q, IsBytes e.1 ∧ IsBytes e.2) :
    URL.Query u = (Values.sortedPairs q).foldl (fun m e => Values.Add m e.1 e.2) [] := by
  unfold URL.Query
  rw [hu]
  by_cases hne : Values.encodePairs q = []
  · have : Values.sortedPairs q = [] := by
      rw [Values.encodePairs_eq] at hne
      exact List.map_eq_nil_iff.mp hne
    rw [Values.Encode, hne, this]
    rfl
  · rw [Values.Encode, Strings.split_intercalate _ hne, Values.encodePairs_eq, List.map_map]
    · exact Url.foldl_parseQueryStep [] _ h
    · intro p hp
      obtain ⟨k, _, v, _, rfl⟩ := (Values.mem_encodePairs q p).mp hp
      exact Url.pair_no_amp k v

theorem Values.get_foldl_Add (l : List (String × String)) (m : Values) (k : String) :
    Values.get (l.foldl (fun m e => Values.Add m e.1 e.2) m) k =
      Values.get m k ++ (l.filter (fun e => e.1 = k)).map Prod.snd := by
  induction l generalizing m with
  | nil => simp
  | cons e l ih =>
    simp only [List.foldl_cons, ih]
    by_cases h : e.1 = k
    · subst h
      simp [Values.get_Add_self]
    · simp [Values.get_Add_ne _ _ _ _ (Ne.symm h), h]

theorem filter_flatMap_key (ks : List String) (g : String → List String) (k : String)
    (hks : ks.Nodup) :
    ((ks.flatMap (fun k1 => (g k1).map (fun value => (k1, value)))).filter
        (fun e => e.1 = k)).map Prod.snd = if k ∈ ks then g k else [] := by
  induction ks with
  | nil => simp
  | cons a ks ih =>
    have hn := List.nodup_cons.mp hks
    simp only [List.flatMap_cons, List.filter_append, List.map_append, ih hn.2]
    by_cases h : a = k
    · subst h
      simp [hn.1, List.filter_map, Function.comp_def]
    · have : k ∉ [a] := by simp [Ne.symm h]
      simp [h, Ne.symm h, List.filter_map, Function.comp_def]

theorem Values.get_of_not_mem (q : Values) (k : String) (h : k ∉ q.map Prod.fst) :
    Values.get q k = [] := by
  unfold Values.get
  cases hf : List.find? (fun e => decide (e.1 = k)) q with
  | none => rfl
  | some e =>
    exfalso
    apply h
    have h1 := List.find?_some hf
    simp at h1
    exact List.mem_map.mpr ⟨e, List.mem_of_find?_eq_some hf, h1⟩

theorem Values.get_Query_Encode (u : URL) (q : Values) (k : String)
    (hu : u.RawQuery = Values.Encode q) (hq : (q.map Prod.fst).Nodup)
    (h : ∀ e ∈ Values.sortedPairs q, IsBytes e.1 ∧ IsBytes e.2) :
    Values.get (URL.Query u) k = Values.get q k := by
  rw [Url.Query_Encode u q hu h, Values.get_foldl_Add]
  unfold Values.sortedPairs
  have hs : (Values.sortedKeys q).Nodup :=
    (List.perm_insertionSort _ _).nodup_iff.mpr hq
  rw [filter_flatMap_key _ _ _ hs]
  by_cases hk : k ∈ Values.sortedKeys q
  · simp [hk, Values.get]
  · have : k ∉ q.map Prod.fst := by
      intro hm
      apply hk
      unfold Values.sortedKeys
      exact (List.mem_insertionSort _).mpr hm
    rw [Values.get_of_not_mem q k this]
    simp [hk, Values.get]

theorem Values.keys_Add_eq (q : Values) (k v : String) :
    (Values.Add q k v).map Prod.fst =
      if k ∈ q.map Prod.fst then q.map Prod.fst else q.map Prod.fst ++ [k] := by
  induction q with
  | nil => simp [Values.Add]
  | cons e q ih =>
    obtain ⟨k2, vs2⟩ := e
    by_cases h : k2 = k
    · subst h
      simp [Values.Add]
    · simp only [Values.Add, h, if_false, List.map_cons, ih, List.mem_cons, Ne.symm h,
        false_or]
      split <;> simp

theorem Values.nodup_Add (q : Values) (k v : String) (h : (q.map Prod.fst).Nodup) :
    ((Values.Add q k v).map Prod.fst).Nodup := by
  rw [Values.keys_Add_eq]
  split
  · exact h
  · rename_i hk
    exact List.nodup_append.mpr ⟨h, List.nodup_singleton k, by
      intro a ha hb
      simp at hb
      exact hk (hb ▸ ha)⟩

theorem Url.nodup_Query (u : URL) : ((URL.Query u).map Prod.fst).Nodup := by
  unfold URL.Query
  have : ∀ (l : List (List Char)) (m : Values), (m.map Prod.fst).Nodup →
      ((l.foldl parseQueryStep m).map Prod.fst).Nodup := by
    intro l
    induction l with
    | nil => exact fun m h => h
    | cons a l ih =>
      intro m h
      apply ih
      unfold parseQueryStep
      split
      · exact h
      · split
        · exact h
        · split
          · exact h
          · split
            · exact h
            · exact Values.nodup_Add _ _ _ h
  exact this _ [] List.nodup_nil

theorem requestQuery_nodup (p : URL) (vm : VersionMeta) :
    ((requestQuery p vm).map Prod.fst).Nodup := by
  have h0 := Url.nodup_Query p
  unfold requestQuery
  split_ifs <;> repeat (first | exact h0 | apply Values.nodup_Add)

theorem requestQuery_get (p : URL) (vm : VersionMeta) (hq : URL.Query p = []) :
    Values.get (requestQuery p vm) "databaseVersion" = [vm.PXCVersion] ∧
    Values.get (requestQuery p vm) "kubeVersion" = [vm.KubeVersion] ∧
    Values.get (requestQuery p vm) "platform" = [vm.Platform] ∧
    Values.get (requestQuery p vm) "customResourceUID" = [vm.CRUID] ∧
    Values.get (requestQuery p vm) "pmmVersion" =
      (if vm.PMMVersion = "" then [] else [vm.PMMVersion]) ∧
    Values.get (requestQuery p vm) "backupVersion" =
      (if vm.BackupVersion = "" then [] else [vm.BackupVersion]) ∧
    Values.get (requestQuery p vm) "proxysqlVersion" =
      (if vm.ProxySqlVersion = "" then [] else [vm.ProxySqlVersion]) ∧
    Values.get (requestQuery p vm) "haproxyVersion" =
      (if vm.HAProxyVersion = "" then [] else [vm.HAProxyVersion]) := by
  have e : ∀ k, Values.get [] k = [] := fun k => rfl
  by_cases h1 : vm.PMMVersion = "" <;> by_cases h2 : vm.BackupVersion = "" <;>
    by_cases h3 : vm.ProxySqlVersion = "" <;> by_cases h4 : vm.HAProxyVersion = "" <;>
    simp [requestQuery, hq, h1, h2, h3, h4, Values.get_Add_self, Values.get_Add_ne, e]

theorem name_bytes (k : String)
    (hk : k = "databaseVersion" ∨ k = "kubeVersion" ∨ k = "platform" ∨
      k = "customResourceUID" ∨ k = "pmmVersion" ∨ k = "backupVersion" ∨
      k = "proxysqlVersion" ∨ k = "haproxyVersion") : IsBytes k := by
  unfold IsBytes
  rcases hk with h | h | h | h | h | h | h | h <;> subst h <;> decide

theorem requestQuery_bytes (p : URL) (vm : VersionMeta) (hq : URL.Query p = [])
    (hb : vm.IsBytes) :
    ∀ e ∈ Values.sortedPairs (requestQuery p vm), IsBytes e.1 ∧ IsBytes e.2 := by
  intro e he
  unfold Values.sortedPairs at he
  simp only [List.mem_flatMap, List.mem_map] at he
  obtain ⟨k, hk, v, hv, rfl⟩ := he
  have hk1 := requestQuery_keys p vm hq k
    ((List.mem_insertionSort _).mp (by unfold Values.sortedKeys at hk; exact hk))
  obtain ⟨g1, g2, g3, g4, g5, g6, g7, g8⟩ := requestQuery_get p vm hq
  obtain ⟨_, b1, b2, b3, b4, b5, b6, b7, b8⟩ := hb
  have empty : ∀ s : String, ∀ t : String, s ∈ (if t = "" then [] else [t]) → s = t := by
    intro s t h
    split at h <;> simp at h
    exact h
  refine ⟨name_bytes k (by tauto), ?_⟩
  show IsBytes v
  rcases hk1 with h | h | h | h | ⟨h, _⟩ | ⟨h, _⟩ | ⟨h, _⟩ | ⟨h, _⟩ <;> subst h
  · rw [g1] at hv; simp at hv; subst hv; exact b1
  · rw [g2] at hv; simp at hv; subst hv; exact b2
  · rw [g3] at hv; simp at hv; subst hv; exact b3
  · rw [g4] at hv; simp at hv; subst hv; exact b8
  · rw [g5] at hv; rw [empty _ _ hv]; exact b6
  · rw [g6] at hv; rw [empty _ _ hv]; exact b7
  · rw [g7] at hv; rw [empty _ _ hv]; exact b4
  · rw [g8] at hv; rw [empty _ _ hv]; exact b5

theorem Query_mandatory (p : URL) (vm : VersionMeta) (hq : URL.Query p = [])
    (hPMM : vm.PMMVersion = "") (hBackup : vm.BackupVersion = "")
    (hProxySql : vm.ProxySqlVersion = "") (hHAProxy : vm.HAProxyVersion = "")
    (hb : vm.IsBytes) :
    URL.Query { p with RawQuery := Values.Encode (requestQuery p vm) } =
      [("customResourceUID", [vm.CRUID]), ("databaseVersion", [vm.PXCVersion]),
       ("kubeVersion", [vm.KubeVersion]), ("platform", [vm.Platform])] := by
  rw [Url.Query_Encode _ (requestQuery p vm) rfl (requestQuery_bytes p vm hq hb)]
  have hpairs : Values.sortedPairs (requestQuery p vm) =
      [("customResourceUID", vm.CRUID), ("databaseVersion", vm.PXCVersion),
       ("kubeVersion", vm.KubeVersion), ("platform", vm.Platform)] := by
    simp only [requestQuery, hq, hPMM, hBackup, hProxySql, hHAProxy, ne_eq,
      not_true_eq_false, if_false]
    unfold Values.sortedPairs
    simp [Values.Add, sortedKeys_mandatory, Values.get]
  rw [hpairs]
  simp [Values.Add]

theorem Query_optional (p : URL) (vm : VersionMeta) (hq : URL.Query p = [])
    (hb : vm.IsBytes) :
    Values.get (URL.Query { p with RawQuery := Values.Encode (requestQuery p vm) })
        "pmmVersion" = (if vm.PMMVersion = "" then [] else [vm.PMMVersion]) ∧
    Values.get (URL.Query { p with RawQuery := Values.Encode (requestQuery p vm) })
        "backupVersion" = (if vm.BackupVersion = "" then [] else [vm.BackupVersion]) ∧
    Values.get (URL.Query { p with RawQuery := Values.Encode (requestQuery p vm) })
        "proxysqlVersion" = (if vm.ProxySqlVersion = "" then [] else [vm.ProxySqlVersion]) ∧
    Values.get (URL.Query { p with RawQuery := Values.Encode (requestQuery p vm) })
        "haproxyVersion" = (if vm.HAProxyVersion = "" then [] else [vm.HAProxyVersion]) := by
  obtain ⟨_, _, _, _, g5, g6, g7, g8⟩ := requestQuery_get p vm hq
  have key := fun k => Values.get_Query_Encode
    { p with RawQuery := Values.Encode (requestQuery p vm) } (requestQuery p vm) k rfl
    (requestQuery_nodup p vm) (requestQuery_bytes p vm hq hb)
  exact ⟨(key _).trans g5, (key _).trans g6, (key _).trans g7, (key _).trans g8⟩

theorem Url.setPath_suffix (url u : URL) (a b : List Char) (hb : '%' ∉ b)
    (h : URL.setPath url (a ++ '/' :: b) = .ok u) :
    (∃ base, u.Path.toList = base ++ '/' :: b) ∧
      (u.RawPath = "" ∨ ∃ base, u.RawPath.toList = base ++ '/' :: b) ∧
      u.Opaque = url.Opaque ∧ u.Fragment = url.Fragment := by
  unfold URL.setPath at h
  split at h
  · simp at h
  · rename_i path hp
    simp at h
    subst h
    obtain ⟨ra, hra⟩ := Url.unescape_path_append _ a b path (Nat.le_refl _) hb hp
    refine ⟨⟨ra, hra⟩, ?_, rfl, rfl⟩
    by_cases hc : a ++ '/' :: b = escape .encodePath path
    · left
      simp [hc]
    · right
      exact ⟨a, by simp [hc, String.toList]⟩

theorem Url.parseRest_suffix (url u : URL) (a b : List Char) (v : Bool) (hb : '%' ∉ b)
    (ha : ¬ ['/'] <:+ a) (h : parseRest url (a ++ '/' :: 'v' :: b) v = .ok u) :
    (∃ base, u.Path.toList = base ++ '/' :: 'v' :: b) ∧
      (u.RawPath = "" ∨ ∃ base, u.RawPath.toList = base ++ '/' :: 'v' :: b) ∧
      u.Opaque = url.Opaque ∧ u.Fragment = url.Fragment := by
  have hb1 : '%' ∉ 'v' :: b := by
    simp only [List.mem_cons, not_or]
    exact ⟨by decide, hb⟩
  unfold parseRest at h
  split at h
  · rename_i hcond
    simp only [Bool.and_eq_true] at hcond
    have hpre := hcond.2
    obtain ⟨a3, rfl⟩ : ∃ a3, a = '/' :: '/' :: a3 := by
      cases a with
      | nil => simp [Strings.hasPrefix, List.isPrefixOf] at hpre
      | cons c a =>
        cases a with
        | nil =>
          simp [Strings.hasPrefix, List.isPrefixOf] at hpre
          exact absurd (by rw [hpre.symm]) ha
        | cons d a =>
          simp [Strings.hasPrefix, List.isPrefixOf] at hpre
          exact ⟨a, by rw [← hpre.1, ← hpre.2]⟩
    simp only [List.cons_append, List.drop_succ_cons, List.drop_zero] at h
    obtain ⟨hfound, a1, ha1⟩ := Strings.cut_slash_append a3 ('v' :: b)
    split at h
    · simp at h
    · rw [hfound, if_pos rfl, ha1] at h
      obtain ⟨h1, h2, h3, h4⟩ := Url.setPath_suffix _ u a1 ('v' :: b) hb1 h
      exact ⟨h1, h2, h3, h4⟩
  · split at h
    · obtain ⟨h1, h2, h3, h4⟩ := Url.setPath_suffix _ u a ('v' :: b) hb1 h
      exact ⟨h1, h2, h3, h4⟩
    · exact Url.setPath_suffix _ u a ('v' :: b) hb1 h

theorem Url.parseQueryAndRest_suffix (url u : URL) (a b : List Char) (v : Bool)
    (hb : '%' ∉ b) (ha : ¬ ['/'] <:+ a) (hq : '?' ∉ a ++ '/' :: 'v' :: b)
    (ho : url.Opaque = "") (hf : url.Fragment = "")
    (h : parseQueryAndRest url (a ++ '/' :: 'v' :: b) v = .ok u) :
    ((u.Opaque = "" ∧ (∃ base, u.Path.toList = base ++ '/' :: 'v' :: b) ∧
        (u.RawPath = "" ∨ ∃ base, u.RawPath.toList = base ++ '/' :: 'v' :: b)) ∨
      ∃ base, u.Opaque.toList = base ++ '/' :: 'v' :: b) ∧ u.Fragment = "" := by
  unfold parseQueryAndRest at h
  simp only [Strings.hasSuffix_single_false '?' _ hq, Bool.false_and,
    Strings.cut_of_not_mem '?' _ hq, Bool.false_eq_true, if_false] at h
  have key : ∀ url1 : URL, url1.Opaque = "" → url1.Fragment = "" →
      parseRest url1 (a ++ '/' :: 'v' :: b) v = .ok u →
      ((u.Opaque = "" ∧ (∃ base, u.Path.toList = base ++ '/' :: 'v' :: b) ∧
          (u.RawPath = "" ∨ ∃ base, u.RawPath.toList = base ++ '/' :: 'v' :: b)) ∨
        ∃ base, u.Opaque.toList = base ++ '/' :: 'v' :: b) ∧ u.Fragment = "" := by
    intro url1 h1 h2 hp
    obtain ⟨p1, p2, p3, p4⟩ := Url.parseRest_suffix url1 u a b v hb ha hp
    exact ⟨Or.inl ⟨p3.trans h1, p1, p2⟩, p4.trans h2⟩
  split at h
  · split at h
    · simp at h
      subst h
      exact ⟨Or.inr ⟨a, rfl⟩, hf⟩
    · split at h
      · simp at h
      · split at h
        · simp at h
        · exact key _ (by exact ho) (by exact hf) h
  · exact key _ (by exact ho) (by exact hf) h

theorem Url.parse_suffix (u : URL) (a b : List Char)
    (hb : '%' ∉ b) (ha : ¬ ['/'] <:+ a) (hq : '?' ∉ a ++ '/' :: 'v' :: b)
    (h : parse (a ++ '/' :: 'v' :: b) false = .ok u) :
    ((u.Opaque = "" ∧ (∃ base, u.Path.toList = base ++ '/' :: 'v' :: b) ∧
        (u.RawPath = "" ∨ ∃ base, u.RawPath.toList = base ++ '/' :: 'v' :: b)) ∨
      ∃ base, u.Opaque.toList = base ++ '/' :: 'v' :: b) ∧ u.Fragment = "" := by
  unfold parse at h
  split at h
  · simp at h
  · split at h
    · simp at h
    · split at h
      · rename_i hstar
        have := congrArg List.length hstar
        simp at this
        omega
      · split at h
        · simp at h
        · rename_i scheme rest hs
          rcases Url.getSchemeLoop_split _ 0 a ('v' :: b) scheme rest hs with h1 | ⟨a1, h1, h2⟩
          · rw [h1] at h
            exact Url.parseQueryAndRest_suffix _ u a b false hb ha hq rfl rfl h
          · rw [h2] at h
            refine Url.parseQueryAndRest_suffix _ u a1 b false hb
              (fun hs1 => ha (hs1.trans h1)) ?_ rfl rfl h
            intro hm
            apply hq
            obtain ⟨t, rfl⟩ := h1
            simp only [List.append_assoc, List.mem_append] at hm ⊢
            exact Or.inr hm

theorem Url.Parse_suffix (u : URL) (a b : List Char)
    (hb : '%' ∉ b) (ha : ¬ ['/'] <:+ a) (hq : '?' ∉ a ++ '/' :: 'v' :: b)
    (hh : '#' ∉ a ++ '/' :: 'v' :: b)
    (h : Parse (String.mk (a ++ '/' :: 'v' :: b)) = .ok u) :
    ((u.Opaque = "" ∧ (∃ base, u.Path.toList = base ++ '/' :: 'v' :: b) ∧
        (u.RawPath = "" ∨ ∃ base, u.RawPath.toList = base ++ '/' :: 'v' :: b)) ∨
      ∃ base, u.Opaque.toList = base ++ '/' :: 'v' :: b) ∧ u.Fragment = "" := by
  unfold Parse at h
  simp only [String.toList, Strings.cut_of_not_mem '#' _ hh, if_true] at h
  split at h
  · simp at h
  · rename_i url hp
    simp at h
    subst h
    exact Url.parse_suffix _ a b hb ha hq hp

theorem Url.escape_cons (mode : Encoding) (c : Char) (s : List Char) :
    escape mode (c :: s) =
      if c = ' ' ∧ mode = .encodeQueryComponent then '+' :: escape mode s
      else if shouldEscape c mode then
        '%' :: upperhex (byte c / 16) :: upperhex (byte c % 16) :: escape mode s
      else c :: escape mode s := by
  rw [escape]

theorem Url.escape_append (mode : Encoding) (x y : List Char) :
    escape mode (x ++ y) = escape mode x ++ escape mode y := by
  induction x with
  | nil => rfl
  | cons c x ih =>
    rw [List.cons_append, Url.escape_cons, Url.escape_cons, ih]
    split
    · rfl
    · split <;> rfl

theorem Url.escape_path_mem (s : List Char) (x : Char) (h : x ∈ escape .encodePath s) :
    x = '%' ∨ x ∈ ['0', '1', '2', '3', '4', '5', '6', '7', '8', '9', 'A', 'B', 'C', 'D',
      'E', 'F'] ∨ (x ∈ s ∧ shouldEscape x .encodePath = false) := by
  induction s with
  | nil => simp [escape] at h
  | cons c s ih =>
    have lift : (x = '%' ∨ x ∈ ['0', '1', '2', '3', '4', '5', '6', '7', '8', '9', 'A', 'B',
          'C', 'D', 'E', 'F'] ∨ (x ∈ s ∧ shouldEscape x .encodePath = false)) →
        (x = '%' ∨ x ∈ ['0', '1', '2', '3', '4', '5', '6', '7', '8', '9', 'A', 'B',
          'C', 'D', 'E', 'F'] ∨ (x ∈ c :: s ∧ shouldEscape x .encodePath = false)) := by
      rintro (h1 | h1 | ⟨h1, h2⟩)
      · exact Or.inl h1
      · exact Or.inr (Or.inl h1)
      · exact Or.inr (Or.inr ⟨List.mem_cons_of_mem _ h1, h2⟩)
    unfold escape at h
    split at h
    · rename_i hc
      exact absurd hc.2 (by decide)
    · split at h
      · simp only [List.mem_cons] at h
        rcases h with h | h | h | h
        · exact Or.inl h
        · exact Or.inr (Or.inl (h ▸ Url.upperhex_mem _))
        · exact Or.inr (Or.inl (h ▸ Url.upperhex_mem _))
        · exact lift (ih h)
      · rename_i hs
        simp only [List.mem_cons] at h
        rcases h with h | h
        · subst h
          exact Or.inr (Or.inr ⟨by simp, by simpa using hs⟩)
        · exact lift (ih h)

/-- A path segment written by `escape` holds no `/`, `?` or `#` unless the
text had a `/`. -/
theorem Url.escape_path_segment (s : List Char) (hs : '/' ∉ s) :
    ∀ c ∈ escape .encodePath s, c ≠ '/' ∧ c ≠ '?' ∧ c ≠ '#' := by
  intro c hc
  rcases Url.escape_path_mem s c hc with h | h | ⟨h1, h2⟩
  · subst h
    decide
  · revert h
    simp only [List.mem_cons, List.mem_singleton, List.not_mem_nil, or_false]
    rintro (h | h | h | h | h | h | h | h | h | h | h | h | h | h | h | h) <;> subst h <;>
      decide
  · refine ⟨fun e => hs (e ▸ h1), fun e => ?_, fun e => ?_⟩
    · subst e
      exact absurd h2 (by decide)
    · subst e
      exact absurd h2 (by decide)

theorem Url.unescape_escape_path (s : List Char) (hs : ∀ c ∈ s, c.toNat < 256) :
    unescape .encodePath (escape .encodePath s) = .ok s := by
  induction s with
  | nil => rfl
  | cons c s ih =>
    have ih1 := ih (fun x hx => hs x (List.mem_cons_of_mem _ hx))
    have hc : c.toNat < 256 := hs c (by simp)
    unfold escape
    have hm : ¬ (c = ' ' ∧ Encoding.encodePath = Encoding.encodeQueryComponent) :=
      fun h => absurd h.2 (by decide)
    simp only [hm, if_false]
    by_cases h2 : shouldEscape c .encodePath = true
    · simp only [h2, if_true]
      have hb : byte c = c.toNat := Nat.mod_eq_of_lt hc
      have l1 : byte c / 16 < 16 := by rw [hb]; omega
      have l2 : byte c % 16 < 16 := Nat.mod_lt _ (by decide)
      obtain ⟨u1, x1⟩ := Url.unhex_upperhex _ l1
      obtain ⟨u2, x2⟩ := Url.unhex_upperhex _ l2
      unfold unescape
      simp only [if_true, x1, x2, Bool.not_true, Bool.or_self, Bool.false_eq_true, if_false,
        ih1, u1, u2]
      have e : byte c / 16 * 16 + byte c % 16 = c.toNat := by rw [hb]; omega
      simp [e]
    · simp only [h2, if_false]
      have n1 : c ≠ '%' := by
        intro e
        rw [e] at h2
        exact h2 (by decide)
      unfold unescape
      by_cases n2 : c = '+'
      · subst n2
        simp [ih1]
      · simp [n1, n2, ih1]

theorem Url.EscapedPath_suffix (u : URL) (base b : List Char)
    (hP : u.Path.toList = base ++ '/' :: b)
    (hR : u.RawPath = "" ∨ ∃ base1, u.RawPath.toList = base1 ++ '/' :: b) :
    ∃ e, (URL.EscapedPath u).toList = e ++ '/' :: b ∨
      (URL.EscapedPath u).toList = e ++ '/' :: escape .encodePath b := by
  have hstar : u.Path ≠ "*" := by
    intro e
    rw [e] at hP
    cases base with
    | nil => simp [String.toList] at hP
    | cons x base =>
      have := congrArg List.length hP
      simp [String.toList] at this
  have hesc : (String.mk (escape .encodePath u.Path.toList)).toList =
      escape .encodePath base ++ '/' :: escape .encodePath b := by
    rw [hP, Url.escape_append]
    have : escape .encodePath ('/' :: b) = '/' :: escape .encodePath b := by
      rw [escape]
      have h1 : ¬ ('/' = ' ' ∧ Encoding.encodePath = Encoding.encodeQueryComponent) :=
        fun h => absurd h.1 (by decide)
      have h2 : shouldEscape '/' .encodePath = false := by decide
      simp [h1, h2]
    rw [this]
    rfl
  unfold URL.EscapedPath
  simp only [hstar, if_false]
  split
  · rename_i hc
    have hraw : ∃ base1, u.RawPath.toList = base1 ++ '/' :: b := by
      rcases hR with h | h
      · exact absurd h hc.1
      · exact h
    obtain ⟨base1, hb1⟩ := hraw
    split
    · split
      · exact ⟨base1, Or.inl hb1⟩
      · exact ⟨_, Or.inr hesc⟩
    · exact ⟨_, Or.inr hesc⟩
  · exact ⟨_, Or.inr hesc⟩

theorem Url.String_form (u : URL) (hF : u.Fragment = "") (hQ : u.RawQuery ≠ "") :
    ∃ pre : String, URL.String u =
      pre ++ (if u.Opaque ≠ "" then u.Opaque else URL.EscapedPath u) ++ "?" ++ u.RawQuery := by
  unfold URL.String
  simp only [hF, hQ, ne_eq, not_true_eq_false, not_false_eq_true, or_true, if_true, if_false]
  split
  · exact ⟨_, rfl⟩
  · exact ⟨_, rfl⟩

theorem requestQuery_Encode_ne (p : URL) (vm : VersionMeta) :
    Values.Encode (requestQuery p vm) ≠ "" := by
  intro h
  have hne := requestQuery_pairs_ne_nil p vm
  cases hp : Values.encodePairs (requestQuery p vm) with
  | nil => exact hne hp
  | cons a l =>
    have ha : a ∈ Values.encodePairs (requestQuery p vm) := by rw [hp]; simp
    obtain ⟨k, _, v, _, rfl⟩ := (Values.mem_encodePairs _ _).mp ha
    have := congrArg String.data h
    rw [Values.Encode, hp] at this
    simp [String.intercalate, intercalate_go_data, String.data_append] at this

theorem requestQuery_of_empty (p : URL) (vm : VersionMeta) (hq : URL.Query p = []) :
    requestQuery p vm = requestQuery {} vm := by
  have e : URL.Query {} = [] := rfl
  simp only [requestQuery, hq, e]

theorem escape_path_suffix (op ch : List Char) :
    escape .encodePath ('v' :: ("1/pxc-operator/".toList ++ op ++ '/' :: ch)) =
      'v' :: ("1/pxc-operator/".toList ++ escape .encodePath op ++
        '/' :: escape .encodePath ch) := by
  have e1 : ('v' :: ("1/pxc-operator/".toList ++ op ++ '/' :: ch)) =
      "v1/pxc-operator/".toList ++ (op ++ (['/'] ++ ch)) := by
    simp [String.toList]
  have e2 : escape .encodePath "v1/pxc-operator/".toList = "v1/pxc-operator/".toList := by
    decide
  have e3 : escape .encodePath ['/'] = ['/'] := by decide
  rw [e1, Url.escape_append, Url.escape_append, Url.escape_append, e2, e3]
  simp [String.toList]

theorem String_assembly (pre x q : String) (e seg1 seg2 : List Char)
    (hx : x.toList = e ++ '/' :: 'v' :: ("1/pxc-operator/".toList ++ seg1 ++ '/' :: seg2)) :
    pre ++ x ++ "?" ++ q =
      (pre ++ String.mk e) ++ "/v1/pxc-operator/" ++ String.mk seg1 ++ "/" ++
        String.mk seg2 ++ "?" ++ q := by
  apply String.ext
  simp only [String.toList] at hx
  simp only [String.data_append, hx]
  simp [String.toList]

theorem received_requested (env : Env) (vs : VersionServiceClient) (endpoint : String)
    (vm : VersionMeta) (u : URL) (resp : Response) (hu : requestURL vs endpoint vm = .ok u)
    (h : receivedResponse env vs endpoint vm = some resp) :
    ∃ req, NewRequest "GET" (URL.String u) = .ok req ∧
      env.Do (req.setHeader "Accept" "application/json") = .ok resp := by
  unfold receivedResponse at h
  simp only [hu] at h
  split at h
  · simp at h
  · rename_i req hreq
    split at h
    · simp at h
    · rename_i resp1 hdo
      simp at h
      subst h
      exact ⟨req, hreq, hdo⟩


set_option maxRecDepth 100000 in
theorem requestURL_channelSpace :
    requestURL sampleClient "http://vs/" channelSpace = .ok spaceURL :=
  rfl

set_option maxRecDepth 100000 in
theorem String_channelSpace :
    URL.String spaceURL = "http://vs/v1/pxc-operator/1.14.0/a%20b?customResourceUID=abc123" ++
      "&databaseVersion=8.0.32&kubeVersion=1.28&platform=kubernetes" := by
  decide


/-! ## The claims on the query string -/

/-- C5, refuted: with every optional field empty and the channel
"recommended?pmmVersion=2.0", the query string of the request has five
parameters, one of them `pmmVersion`. -/
theorem query_takes_parameter_of_channel :
    channelWithPmm.PMMVersion = "" ∧ channelWithPmm.BackupVersion = "" ∧
    channelWithPmm.ProxySqlVersion = "" ∧ channelWithPmm.HAProxyVersion = "" ∧
    ∃ u, requestURL sampleClient "http://vs/" channelWithPmm = .ok u ∧
      u.RawQuery = "customResourceUID=abc123&databaseVersion=8.0.32&kubeVersion=1.28" ++
        "&platform=kubernetes&pmmVersion=2.0" ∧
      queryHasKey u "pmmVersion" = true :=
  ⟨rfl, rfl, rfl, rfl, _, rfl, by decide, by decide⟩

/-- C5, amended: when endpoint, operator version and channel hold no `?` and
the four optional fields are empty, the query string of the request built by
`GetExactVersion` is made of exactly the four parameters `customResourceUID`,
`databaseVersion`, `kubeVersion` and `platform`, each with the escaped value
of `CRUID`, `PXCVersion`, `KubeVersion` and `Platform` (an empty value for an
empty field), and has none of the four optional parameters; parsed back, the
query string yields exactly these four parameters with the caller's values. -/
theorem requestURL_mandatory_query (vs : VersionServiceClient) (endpoint : String)
    (vm : VersionMeta) (u : URL)
    (he : '?' ∉ endpoint.toList) (ho : '?' ∉ vs.OpVersion.toList)
    (ha : '?' ∉ vm.Apply.toList)
    (hPMM : vm.PMMVersion = "") (hBackup : vm.BackupVersion = "")
    (hProxySql : vm.ProxySqlVersion = "") (hHAProxy : vm.HAProxyVersion = "")
    (hu : requestURL vs endpoint vm = .ok u) :
    u.RawQuery =
      "customResourceUID=" ++ QueryEscape vm.CRUID ++
      "&databaseVersion=" ++ QueryEscape vm.PXCVersion ++
      "&kubeVersion=" ++ QueryEscape vm.KubeVersion ++
      "&platform=" ++ QueryEscape vm.Platform ∧
    queryParts u =
      ["customResourceUID=" ++ QueryEscape vm.CRUID,
       "databaseVersion=" ++ QueryEscape vm.PXCVersion,
       "kubeVersion=" ++ QueryEscape vm.KubeVersion,
       "platform=" ++ QueryEscape vm.Platform] ∧
    queryHasKey u "pmmVersion" = false ∧ queryHasKey u "backupVersion" = false ∧
    queryHasKey u "proxysqlVersion" = false ∧ queryHasKey u "haproxyVersion" = false ∧
    (vm.IsBytes →
      URL.Query u =
        [("customResourceUID", [vm.CRUID]), ("databaseVersion", [vm.PXCVersion]),
         ("kubeVersion", [vm.KubeVersion]), ("platform", [vm.Platform])]) := by
  obtain ⟨p, hp, rfl⟩ := requestURL_ok vs endpoint vm u hu
  have hq : URL.Query p = [] :=
    Url.Query_of_empty p (Url.Parse_RawQuery _ p
      (requestURLText_no_question vs endpoint vm he ho ha) hp)
  have hkeys : ∀ name : String, name = "pmmVersion" ∨ name = "backupVersion" ∨
      name = "proxysqlVersion" ∨ name = "haproxyVersion" →
      ∀ k ∈ (requestQuery p vm).map Prod.fst,
        k ≠ name ∧ QueryEscape k = k ∧ '=' ∉ k.toList := by
    intro name hname k hk
    have hk1 := requestQuery_keys p vm hq k hk
    simp only [hPMM, hBackup, hProxySql, hHAProxy, ne_eq, not_true_eq_false, and_false,
      or_false] at hk1
    refine ⟨?_, name_plain k (by tauto)⟩
    rcases hk1 with h | h | h | h <;> rcases hname with g | g | g | g <;> subst h g <;> decide
  have hpairs : Values.encodePairs (requestQuery p vm) =
      ["customResourceUID=" ++ QueryEscape vm.CRUID,
       "databaseVersion=" ++ QueryEscape vm.PXCVersion,
       "kubeVersion=" ++ QueryEscape vm.KubeVersion,
       "platform=" ++ QueryEscape vm.Platform] := by
    have e1 : QueryEscape "customResourceUID" = "customResourceUID" := by decide
    have e2 : QueryEscape "databaseVersion" = "databaseVersion" := by decide
    have e3 : QueryEscape "kubeVersion" = "kubeVersion" := by decide
    have e4 : QueryEscape "platform" = "platform" := by decide
    simp only [requestQuery, hq, hPMM, hBackup, hProxySql, hHAProxy, ne_eq,
      not_true_eq_false, if_false]
    unfold Values.encodePairs
    simp [Values.Add, sortedKeys_mandatory, Values.get, e1, e2, e3, e4]
  refine ⟨?_, ?_, ?_, ?_, ?_, ?_, Query_mandatory p vm hq hPMM hBackup hProxySql hHAProxy⟩
  · show Values.Encode (requestQuery p vm) = _
    simp only [requestQuery, hq, hPMM, hBackup, hProxySql, hHAProxy, ne_eq,
      not_true_eq_false, if_false]
    exact Encode_mandatory _ _ _ _
  · rw [queryParts_Encode _ (requestQuery p vm) rfl (requestQuery_pairs_ne_nil p vm), hpairs]
  · exact queryHasKey_false _ _ _ rfl (requestQuery_pairs_ne_nil p vm) (by decide)
      (hkeys _ (by simp))
  · exact queryHasKey_false _ _ _ rfl (requestQuery_pairs_ne_nil p vm) (by decide)
      (hkeys _ (by simp))
  · exact queryHasKey_false _ _ _ rfl (requestQuery_pairs_ne_nil p vm) (by decide)
      (hkeys _ (by simp))
  · exact queryHasKey_false _ _ _ rfl (requestQuery_pairs_ne_nil p vm) (by decide)
      (hkeys _ (by simp))

/-- C5 amended, at the sample query. -/
theorem requestURL_mandatory_query_witness :
    sampleURL.RawQuery =
      "customResourceUID=" ++ QueryEscape "abc123" ++
      "&databaseVersion=" ++ QueryEscape "8.0.32" ++
      "&kubeVersion=" ++ QueryEscape "1.28" ++
      "&platform=" ++ QueryEscape "kubernetes" ∧
    URL.Query sampleURL =
      [("customResourceUID", ["abc123"]), ("databaseVersion", ["8.0.32"]),
       ("kubeVersion", ["1.28"]), ("platform", ["kubernetes"])] :=
  ⟨(requestURL_mandatory_query sampleClient "http://vs/" sampleMeta sampleURL
      (by decide) (by decide) (by decide) rfl rfl rfl rfl requestURL_sample).1,
   (requestURL_mandatory_query sampleClient "http://vs/" sampleMeta sampleURL
      (by decide) (by decide) (by decide) rfl rfl rfl rfl requestURL_sample).2.2.2.2.2.2
      (by decide)⟩

/-- C6, refuted: with the field `HAProxyVersion` empty and the channel
"latest?haproxyVersion=2.3.14", the query string of the request has the
parameter `haproxyVersion`. -/
theorem empty_optional_field_sent_from_channel :
    channelWithHaproxy.HAProxyVersion = "" ∧
    ∃ u, requestURL sampleClient "http://vs/" channelWithHaproxy = .ok u ∧
      u.RawQuery = "customResourceUID=abc123&databaseVersion=8.0.32" ++
        "&haproxyVersion=2.3.14&kubeVersion=1.28&platform=kubernetes" ∧
      queryHasKey u "haproxyVersion" = true :=
  ⟨rfl, _, rfl, by decide, by decide⟩

/-- C6, amended: in the request built by `GetExactVersion`, every optional
field that is not empty is sent as its parameter with exactly its (escaped)
value; when endpoint, operator version and channel hold no `?`, an optional
field that is empty has no parameter in the request, and the query string,
parsed back, gives each optional parameter the caller's value as its only
value, or no value for an empty field. -/
theorem requestURL_optional_parameters (vs : VersionServiceClient) (endpoint : String)
    (vm : VersionMeta) (u : URL) (hu : requestURL vs endpoint vm = .ok u) :
    (vm.PMMVersion ≠ "" → "pmmVersion=" ++ QueryEscape vm.PMMVersion ∈ queryParts u) ∧
    (vm.BackupVersion ≠ "" →
      "backupVersion=" ++ QueryEscape vm.BackupVersion ∈ queryParts u) ∧
    (vm.ProxySqlVersion ≠ "" →
      "proxysqlVersion=" ++ QueryEscape vm.ProxySqlVersion ∈ queryParts u) ∧
    (vm.HAProxyVersion ≠ "" →
      "haproxyVersion=" ++ QueryEscape vm.HAProxyVersion ∈ queryParts u) ∧
    ('?' ∉ endpoint.toList → '?' ∉ vs.OpVersion.toList → '?' ∉ vm.Apply.toList →
      (vm.PMMVersion = "" → queryHasKey u "pmmVersion" = false) ∧
      (vm.BackupVersion = "" → queryHasKey u "backupVersion" = false) ∧
      (vm.ProxySqlVersion = "" → queryHasKey u "proxysqlVersion" = false) ∧
      (vm.HAProxyVersion = "" → queryHasKey u "haproxyVersion" = false) ∧
      (vm.IsBytes →
        Values.get (URL.Query u) "pmmVersion" =
          (if vm.PMMVersion = "" then [] else [vm.PMMVersion]) ∧
        Values.get (URL.Query u) "backupVersion" =
          (if vm.BackupVersion = "" then [] else [vm.BackupVersion]) ∧
        Values.get (URL.Query u) "proxysqlVersion" =
          (if vm.ProxySqlVersion = "" then [] else [vm.ProxySqlVersion]) ∧
        Values.get (URL.Query u) "haproxyVersion" =
          (if vm.HAProxyVersion = "" then [] else [vm.HAProxyVersion]))) := by
  obtain ⟨p, hp, rfl⟩ := requestURL_ok vs endpoint vm u hu
  obtain ⟨m1, m2, m3, m4⟩ := requestQuery_mem p vm
  have e1 : QueryEscape "pmmVersion" = "pmmVersion" := by decide
  have e2 : QueryEscape "backupVersion" = "backupVersion" := by decide
  have e3 : QueryEscape "proxysqlVersion" = "proxysqlVersion" := by decide
  have e4 : QueryEscape "haproxyVersion" = "haproxyVersion" := by decide
  refine ⟨fun h => ?_, fun h => ?_, fun h => ?_, fun h => ?_, fun he ho ha => ?_⟩
  · have := mem_queryParts_of_get p vm _ _ (m1 h)
    rwa [e1] at this
  · have := mem_queryParts_of_get p vm _ _ (m2 h)
    rwa [e2] at this
  · have := mem_queryParts_of_get p vm _ _ (m3 h)
    rwa [e3] at this
  · have := mem_queryParts_of_get p vm _ _ (m4 h)
    rwa [e4] at this
  · have hq : URL.Query p = [] :=
      Url.Query_of_empty p (Url.Parse_RawQuery _ p
        (requestURLText_no_question vs endpoint vm he ho ha) hp)
    exact ⟨fun h => optional_absent p vm hq _ (Or.inl ⟨rfl, h⟩),
      fun h => optional_absent p vm hq _ (Or.inr (Or.inl ⟨rfl, h⟩)),
      fun h => optional_absent p vm hq _ (Or.inr (Or.inr (Or.inl ⟨rfl, h⟩))),
      fun h => optional_absent p vm hq _ (Or.inr (Or.inr (Or.inr ⟨rfl, h⟩))),
      Query_optional p vm hq⟩

/-- C6 amended, at the sample query with `PMMVersion` "2.41.0": the
parameter `pmmVersion=2.41.0` is sent and `backupVersion` is not. -/
theorem requestURL_optional_parameters_witness :
    "pmmVersion=2.41.0" ∈ queryParts { sampleURL with RawQuery :=
        "customResourceUID=abc123&databaseVersion=8.0.32&kubeVersion=1.28" ++
          "&platform=kubernetes&pmmVersion=2.41.0" } ∧
    queryHasKey { sampleURL with RawQuery :=
        "customResourceUID=abc123&databaseVersion=8.0.32&kubeVersion=1.28" ++
          "&platform=kubernetes&pmmVersion=2.41.0" } "backupVersion" = false ∧
    Values.get (URL.Query { sampleURL with RawQuery :=
        "customResourceUID=abc123&databaseVersion=8.0.32&kubeVersion=1.28" ++
          "&platform=kubernetes&pmmVersion=2.41.0" }) "pmmVersion" = ["2.41.0"] :=
  ⟨(requestURL_optional_parameters sampleClient "http://vs/" metaWithPmm _
      requestURL_metaWithPmm).1 (by decide),
   ((requestURL_optional_parameters sampleClient "http://vs/" metaWithPmm _
      requestURL_metaWithPmm).2.2.2.2 (by decide) (by decide) (by decide)).2.1 rfl,
   (((requestURL_optional_parameters sampleClient "http://vs/" metaWithPmm _
      requestURL_metaWithPmm).2.2.2.2 (by decide) (by decide) (by decide)).2.2.2.2
      (by decide)).1⟩

/-! ## The claim on the request path -/

/-- C7, refuted: the channel "a/b?c#d" is not percent-encoded.  It fills
two segments of the path, adds the parameter `c` to the query string and
sets the fragment of the requested URL, which is not the URL with the
channel escaped as one path segment.  The channel "a%2Fb" is requested as
it is, the text that stands for the two segments `a` and `b`.  After the
endpoint "http://vs/?x=1" operator version and channel end in the query
string, after the endpoint "http://vs/#top" in the fragment, and the path of
the requested URL is `/`. -/
theorem channel_not_percent_encoded :
    (∃ u, requestURL sampleClient "http://vs/" channelReserved = .ok u ∧
      u.Path = "/v1/pxc-operator/1.14.0/a/b" ∧
      u.RawQuery = "c=&customResourceUID=abc123&databaseVersion=8.0.32&kubeVersion=1.28" ++
        "&platform=kubernetes" ∧
      u.Fragment = "d" ∧
      URL.String u = "http://vs/v1/pxc-operator/1.14.0/a/b?c=&customResourceUID=abc123" ++
        "&databaseVersion=8.0.32&kubeVersion=1.28&platform=kubernetes#d" ∧
      PathEscape "a/b?c#d" = "a%2Fb%3Fc%23d" ∧
      ¬ ("http://vs/v1/pxc-operator/" ++ PathEscape "1.14.0" ++ "/" ++
          PathEscape "a/b?c#d").toList <+: (URL.String u).toList) ∧
    (∃ u, requestURL sampleClient "http://vs/" channelPercent = .ok u ∧
      u.Path = "/v1/pxc-operator/1.14.0/a/b" ∧
      URL.String u = "http://vs/v1/pxc-operator/1.14.0/a%2Fb?customResourceUID=abc123" ++
        "&databaseVersion=8.0.32&kubeVersion=1.28&platform=kubernetes" ∧
      PathEscape "a%2Fb" = "a%252Fb" ∧
      ¬ ("http://vs/v1/pxc-operator/" ++ PathEscape "1.14.0" ++ "/" ++
          PathEscape "a%2Fb").toList <+: (URL.String u).toList) ∧
    (∃ u, requestURL sampleClient "http://vs/?x=1" sampleMeta = .ok u ∧
      u.Path = "/" ∧
      URL.String u = "http://vs/?customResourceUID=abc123&databaseVersion=8.0.32" ++
        "&kubeVersion=1.28&platform=kubernetes&x=1%2Fv1%2Fpxc-operator%2F1.14.0%2Frecommended") ∧
    (∃ u, requestURL sampleClient "http://vs/#top" sampleMeta = .ok u ∧
      u.Path = "/" ∧
      u.Fragment = "top/v1/pxc-operator/1.14.0/recommended" ∧
      URL.String u = "http://vs/?customResourceUID=abc123&databaseVersion=8.0.32" ++
        "&kubeVersion=1.28&platform=kubernetes#top/v1/pxc-operator/1.14.0/recommended") :=
  ⟨⟨_, rfl, by decide, by decide, by decide, by decide, by decide, by decide⟩,
   ⟨_, rfl, by decide, by decide, by decide, by decide⟩,
   ⟨_, rfl, by decide, by decide⟩,
   ⟨_, rfl, by decide, by decide, by decide⟩⟩

/-- C7, amended: for every input, the text that `GetExactVersion` parses is
the endpoint without its trailing slashes, followed by `/v1/pxc-operator/`,
the operator version, `/` and the channel, both as they are, and the URL
requested (the text of `requestURL.String()`, handed to `http.NewRequest`)
is that of the parsed text with the query replaced.  When the endpoint holds
no `?` and no `#`, and operator version and channel hold none of `/`, `?`,
`#` and `%`, the requested URL has no fragment, its query holds only the
parameters that `GetExactVersion` adds, the last four segments of its
decoded path (of its opaque part, when the endpoint has a scheme not
followed by `/`) are `v1`, `pxc-operator`, the operator version and the
channel, and its text is a prefix, `/v1/pxc-operator/`, a segment, `/`, a
segment, `?` and the query, where the two segments are the operator version
and the channel, both as they are or both percent-encoded by the path
escaping of `net/url`; the segments hold no `/`, `?` or `#` and unescape to
the operator version and the channel. -/
theorem requestURL_path_verbatim (vs : VersionServiceClient) (endpoint : String)
    (vm : VersionMeta) :
    (∃ trimmed : String,
      (∃ n, endpoint.toList = trimmed.toList ++ List.replicate n '/') ∧
      ¬ (['/'] <:+ trimmed.toList) ∧
      requestURLText vs endpoint vm =
        trimmed ++ "/v1/pxc-operator/" ++ vs.OpVersion ++ "/" ++ vm.Apply ∧
      ∀ u, requestURL vs endpoint vm = .ok u ↔
        ∃ p, Parse (trimmed ++ "/v1/pxc-operator/" ++ vs.OpVersion ++ "/" ++ vm.Apply) =
            .ok p ∧
          u = { p with RawQuery := Values.Encode (requestQuery p vm) }) ∧
    ∀ u, requestURL vs endpoint vm = .ok u →
      (∀ (env : Env) (resp : Response), receivedResponse env vs endpoint vm = some resp →
        ∃ req, NewRequest "GET" (URL.String u) = .ok req ∧
          env.Do (req.setHeader "Accept" "application/json") = .ok resp) ∧
      ((∀ c ∈ endpoint.toList, c ≠ '?' ∧ c ≠ '#') →
        (∀ c ∈ vs.OpVersion.toList ++ vm.Apply.toList,
          c ≠ '/' ∧ c ≠ '?' ∧ c ≠ '#' ∧ c ≠ '%') →
        u.Fragment = "" ∧
        u.RawQuery = Values.Encode (requestQuery {} vm) ∧
        ((u.Opaque = "" ∧ ∃ segs,
            pathSegments u.Path = segs ++ ["v1", "pxc-operator", vs.OpVersion, vm.Apply]) ∨
          ∃ segs,
            pathSegments u.Opaque =
              segs ++ ["v1", "pxc-operator", vs.OpVersion, vm.Apply]) ∧
        ∃ pre seg1 seg2 : String,
          URL.String u =
            pre ++ "/v1/pxc-operator/" ++ seg1 ++ "/" ++ seg2 ++ "?" ++ u.RawQuery ∧
          ((seg1 = vs.OpVersion ∧ seg2 = vm.Apply) ∨
            (seg1 = String.mk (escape .encodePath vs.OpVersion.toList) ∧
              seg2 = String.mk (escape .encodePath vm.Apply.toList))) ∧
          (∀ c ∈ seg1.toList ++ seg2.toList, c ≠ '/' ∧ c ≠ '?' ∧ c ≠ '#') ∧
          (IsBytes vs.OpVersion → IsBytes vm.Apply →
            unescape .encodePath seg1.toList = .ok vs.OpVersion.toList ∧
            unescape .encodePath seg2.toList = .ok vm.Apply.toList)) := by
  constructor
  · refine ⟨String.mk (Strings.trimRight ['/'] endpoint.toList),
      Strings.trimRight_spec '/' endpoint.toList, Strings.trimRight_not_suffix '/' _, rfl, ?_⟩
    intro u
    constructor
    · exact requestURL_ok vs endpoint vm u
    · rintro ⟨p, hp, rfl⟩
      have hp1 : Parse (requestURLText vs endpoint vm) = .ok p := hp
      simp only [requestURL, hp1]
  intro u hu
  refine ⟨fun env resp h => received_requested env vs endpoint vm u resp hu h, ?_⟩
  obtain ⟨p, hp, rfl⟩ := requestURL_ok vs endpoint vm u hu
  intro he hoc
  have hmem : ∀ c ∈ Strings.trimRight ['/'] endpoint.toList, c ∈ endpoint.toList :=
    fun c hc => (Strings.trimRight_prefix _ _).subset hc
  have ho : ∀ c ∈ vs.OpVersion.toList, c ≠ '/' ∧ c ≠ '?' ∧ c ≠ '#' ∧ c ≠ '%' :=
    fun c hc => hoc c (List.mem_append_left _ hc)
  have hc : ∀ c ∈ vm.Apply.toList, c ≠ '/' ∧ c ≠ '?' ∧ c ≠ '#' ∧ c ≠ '%' :=
    fun c hc => hoc c (List.mem_append_right _ hc)
  have notin : ∀ x : Char, x ≠ '/' → x ≠ 'v' → x ∉ "1/pxc-operator/".toList →
      (∀ c ∈ endpoint.toList, c ≠ x) → (∀ c ∈ vs.OpVersion.toList, c ≠ x) →
      (∀ c ∈ vm.Apply.toList, c ≠ x) →
      x ∉ Strings.trimRight ['/'] endpoint.toList ++ '/' :: 'v' ::
        ("1/pxc-operator/".toList ++ vs.OpVersion.toList ++ '/' :: vm.Apply.toList) := by
    intro x h1 h2 h3 h4 h5 h6 hm
    simp only [List.mem_append, List.mem_cons] at hm
    rcases hm with hm | hm | hm | (hm | hm) | hm | hm
    · exact h4 x (hmem x hm) rfl
    · exact h1 hm
    · exact h2 hm
    · exact h3 hm
    · exact h5 x hm rfl
    · exact h1 hm
    · exact h6 x hm rfl
  have hpo : '%' ∉ vs.OpVersion.toList := fun hm => (ho _ hm).2.2.2 rfl
  have hpc : '%' ∉ vm.Apply.toList := fun hm => (hc _ hm).2.2.2 rfl
  have hpct : '%' ∉ "1/pxc-operator/".toList ++ vs.OpVersion.toList ++ '/' :: vm.Apply.toList := by
    intro hm
    simp only [List.mem_append, List.mem_cons] at hm
    rcases hm with (hm | hm) | hm | hm
    · revert hm
      decide
    · exact hpo hm
    · revert hm
      decide
    · exact hpc hm
  have hquestion := notin '?' (by decide) (by decide) (by decide) (fun c h => (he c h).1)
    (fun c h => (ho c h).2.1) (fun c h => (hc c h).2.1)
  have hq : URL.Query p = [] :=
    Url.Query_of_empty p (Url.Parse_RawQuery _ p (by
      rw [requestURLText_mk]
      exact hquestion) hp)
  rw [requestURLText_mk] at hp
  obtain ⟨hpath, hfrag⟩ := Url.Parse_suffix p _ _ hpct (Strings.trimRight_not_suffix '/' _)
    hquestion
    (notin '#' (by decide) (by decide) (by decide) (fun c h => (he c h).2)
      (fun c h => (ho c h).2.2.1) (fun c h => (hc c h).2.2.1)) hp
  have hso : '/' ∉ vs.OpVersion.toList := fun hm => (ho _ hm).1 rfl
  have hsc : '/' ∉ vm.Apply.toList := fun hm => (hc _ hm).1 rfl
  refine ⟨hfrag, by rw [requestQuery_of_empty p vm hq], ?_, ?_⟩
  · rcases hpath with ⟨h1, ⟨base, h2⟩, _⟩ | ⟨base, h2⟩
    · exact Or.inl ⟨h1, pathSegments_suffix _ base _ _ hso hsc h2⟩
    · exact Or.inr (pathSegments_suffix _ base _ _ hso hsc h2)
  · obtain ⟨pre, hstr⟩ := Url.String_form
      { p with RawQuery := Values.Encode (requestQuery p vm) } hfrag
      (requestQuery_Encode_ne p vm)
    have verbatim : (∀ c ∈ vs.OpVersion.toList ++ vm.Apply.toList,
        c ≠ '/' ∧ c ≠ '?' ∧ c ≠ '#') ∧
        (IsBytes vs.OpVersion → IsBytes vm.Apply →
          unescape .encodePath vs.OpVersion.toList = .ok vs.OpVersion.toList ∧
          unescape .encodePath vm.Apply.toList = .ok vm.Apply.toList) :=
      ⟨fun c h => ⟨(hoc c h).1, (hoc c h).2.1, (hoc c h).2.2.1⟩,
        fun _ _ => ⟨Url.unescape_path_plain _ hpo, Url.unescape_path_plain _ hpc⟩⟩
    have escaped : (∀ c ∈ escape .encodePath vs.OpVersion.toList ++
          escape .encodePath vm.Apply.toList, c ≠ '/' ∧ c ≠ '?' ∧ c ≠ '#') ∧
        (IsBytes vs.OpVersion → IsBytes vm.Apply →
          unescape .encodePath (escape .encodePath vs.OpVersion.toList) =
            .ok vs.OpVersion.toList ∧
          unescape .encodePath (escape .encodePath vm.Apply.toList) =
            .ok vm.Apply.toList) := by
      refine ⟨fun c h => ?_, fun b1 b2 =>
        ⟨Url.unescape_escape_path _ b1, Url.unescape_escape_path _ b2⟩⟩
      rcases List.mem_append.mp h with h | h
      · exact Url.escape_path_segment _ hso c h
      · exact Url.escape_path_segment _ hsc c h
    rcases hpath with ⟨h1, ⟨base, h2⟩, h3⟩ | ⟨base, h2⟩
    · obtain ⟨e, h4⟩ := Url.EscapedPath_suffix
        { p with RawQuery := Values.Encode (requestQuery p vm) } base _ h2 h3
      rw [if_neg (not_not.mpr h1)] at hstr
      rcases h4 with h4 | h4
      · exact ⟨pre ++ String.mk e, vs.OpVersion, vm.Apply,
          by rw [hstr]; exact String_assembly _ _ _ e _ _ h4, Or.inl ⟨rfl, rfl⟩, verbatim⟩
      · rw [escape_path_suffix] at h4
        exact ⟨pre ++ String.mk e, _, _,
          by rw [hstr]; exact String_assembly _ _ _ e _ _ h4, Or.inr ⟨rfl, rfl⟩, escaped⟩
    · have hop : ({ p with RawQuery := Values.Encode (requestQuery p vm) } : URL).Opaque ≠
          "" := by
        intro e
        have h5 : p.Opaque.toList = base ++ '/' :: 'v' ::
            ("1/pxc-operator/".toList ++ vs.OpVersion.toList ++ '/' :: vm.Apply.toList) := h2
        have e1 : p.Opaque = "" := e
        rw [e1] at h5
        simp [String.toList] at h5
      rw [if_pos hop] at hstr
      exact ⟨pre ++ String.mk base, vs.OpVersion, vm.Apply,
        by rw [hstr]; exact String_assembly _ _ _ base _ _ h2, Or.inl ⟨rfl, rfl⟩, verbatim⟩

/-- C7 amended, at the channel "a b": the requested URL has no fragment, its
query holds only the parameters added, its decoded path ends with the
segments `v1`, `pxc-operator`, `1.14.0` and `a b`, and its text carries the
operator version and the channel as two segments without `/`, `?` or `#`. -/
theorem requestURL_path_verbatim_witness :
    spaceURL.Fragment = "" ∧
    spaceURL.RawQuery = Values.Encode (requestQuery {} channelSpace) ∧
    ((spaceURL.Opaque = "" ∧ ∃ segs,
        pathSegments spaceURL.Path = segs ++ ["v1", "pxc-operator", "1.14.0", "a b"]) ∨
      ∃ segs,
        pathSegments spaceURL.Opaque = segs ++ ["v1", "pxc-operator", "1.14.0", "a b"]) ∧
    ∃ pre seg1 seg2 : String,
      URL.String spaceURL =
        pre ++ "/v1/pxc-operator/" ++ seg1 ++ "/" ++ seg2 ++ "?" ++ spaceURL.RawQuery ∧
      ((seg1 = "1.14.0" ∧ seg2 = "a b") ∨
        (seg1 = String.mk (escape .encodePath "1.14.0".toList) ∧
          seg2 = String.mk (escape .encodePath "a b".toList))) ∧
      (∀ c ∈ seg1.toList ++ seg2.toList, c ≠ '/' ∧ c ≠ '?' ∧ c ≠ '#') ∧
      (IsBytes "1.14.0" → IsBytes "a b" →
        unescape .encodePath seg1.toList = .ok "1.14.0".toList ∧
        unescape .encodePath seg2.toList = .ok "a b".toList) :=
  ((requestURL_path_verbatim sampleClient "http://vs/" channelSpace).2 spaceURL
    requestURL_channelSpace).2 (by decide) (by decide)

end Pxc
